import Mathlib

/-!
Shallow embedding of the oxigraph storage core (term model, string
dictionary, encoded-term codec, six-index quad store, loader adapter)
together with theorems settling the specification claims.

The files `src/lib/src/model/named_node.rs`, `src/lib/src/store/mod.rs`
and `src/js/src/store.rs` are embedded directly from the source.  The
store internals (`store/memory.rs`, `store/numeric_encoder.rs`) and the
remaining model files (`blank_node.rs`, `literal.rs`, `triple.rs`,
`rio.rs`) are not part of the provided sources; the corresponding
definitions below are modelled from the specification and are marked as
such in their doc comments.
-/

namespace Oxigraph

/-! ## Well-known IRIs -/

def xsdString : String := "http://www.w3.org/2001/XMLSchema#string"

def xsdInteger : String := "http://www.w3.org/2001/XMLSchema#integer"

def xsdBoolean : String := "http://www.w3.org/2001/XMLSchema#boolean"

def rdfLangString : String := "http://www.w3.org/1999/02/22-rdf-syntax-ns#langString"

/-! ## NamedNode (embedded from `src/lib/src/model/named_node.rs`) -/

/-- An RDF IRI, wrapping its string content
(`pub struct NamedNode { iri: String }`). -/
structure NamedNode where
  iri : String
deriving DecidableEq, Repr

/-- Errors raised by term construction (spec section 7:
`InvalidIri`, `InvalidLanguageTag`). -/
inductive TermError where
  | invalidIri
  | invalidLanguageTag
deriving DecidableEq, Repr

/-- Embeds `NamedNode::new`: validates the string through the external RFC 3987
parser `oxiri::Iri::parse` and keeps the input string unchanged on
success (`Iri::parse` stores the parsed string as-is and `into_inner`
returns it).  The external parser is abstracted as a boolean validity
test `isValidIri`. -/
def NamedNode.new (isValidIri : String → Bool) (iri : String) :
    Except TermError NamedNode :=
  if isValidIri iri then .ok ⟨iri⟩ else .error .invalidIri

/-- Embeds `NamedNode::new_unchecked`: builds the node from any string with no
validation. -/
def NamedNode.new_unchecked (iri : String) : NamedNode := ⟨iri⟩

/-- Embeds `NamedNode::as_str`. -/
def NamedNode.as_str (n : NamedNode) : String := n.iri

/-- The `Display` implementation: the node is rendered through
`rio::NamedNode`, whose formatter writes `<iri>`. -/
def NamedNode.display (n : NamedNode) : String := "<" ++ n.iri ++ ">"

/-! ## Literals and terms (modelled from the spec, section 3;
`literal.rs`, `blank_node.rs` and `triple.rs` are not in the provided
sources) -/

/-- Modelled from the spec: an RDF literal is a lexical form with a
datatype IRI (defaulting to `xsd:string`), or a language-tagged string
(datatype `rdf:langString`). `simple` is the `xsd:string` case, so the
`typed` case never carries the `xsd:string` datatype for terms built by
the public constructors. -/
inductive Literal where
  | simple (lex : String)
  | langString (lex : String) (lang : String)
  | typed (lex : String) (datatype : String)
deriving DecidableEq, Repr

/-- The public typed-literal constructor: a typed literal whose datatype
is `xsd:string` is a simple literal (the spec displays `^^<dt>` only
when the datatype differs from `xsd:string`). -/
def Literal.new_typed (lex : String) (datatype : String) : Literal :=
  if datatype = xsdString then .simple lex else .typed lex datatype

/-- Modelled from the spec: blank nodes are opaque identifiers; the
encoded form stores the identifier directly in the fixed payload, so we
model the identifier as a natural number. -/
inductive NamedOrBlankNode where
  | named (n : NamedNode)
  | blank (id : Nat)
deriving DecidableEq, Repr

/-- Modelled from the spec: terms in object position. -/
inductive Term where
  | named (n : NamedNode)
  | blank (id : Nat)
  | lit (l : Literal)
deriving DecidableEq, Repr

/-- Modelled from the spec: graph names. -/
inductive GraphName where
  | named (n : NamedNode)
  | blank (id : Nat)
  | defaultGraph
deriving DecidableEq, Repr

/-- Modelled from the spec: a quad. -/
structure Quad where
  subject : NamedOrBlankNode
  predicate : NamedNode
  object : Term
  graphName : GraphName
deriving DecidableEq, Repr

/-- A literal is constructible by the public constructors exactly when
its `typed` form does not carry the `xsd:string` datatype (that form is
produced as `simple` by `Literal.new_typed`). -/
def Literal.Constructible : Literal → Prop
  | .typed _ dt => dt ≠ xsdString
  | _ => True

/-- A term is constructible by the public term constructors. -/
def Term.Constructible : Term → Prop
  | .lit l => l.Constructible
  | _ => True

/-! ## String dictionary (modelled from the spec, section 4.2) -/

/-- First index of `s` in a list of strings. -/
def dictFind : List String → String → Option Nat
  | [], _ => none
  | e :: rest, s => if e = s then some 0 else (dictFind rest s).map (· + 1)

/-- Modelled from the spec: the append-only string dictionary.  Entry
`i` of `entries` holds the string with id `i + 1`; id `0` is reserved. -/
structure Dict where
  entries : List String
deriving DecidableEq, Repr

def Dict.empty : Dict := ⟨[]⟩

/-- Operation `intern(bytes) → id`: returns the existing id or allocates the next
one (append-only). -/
def Dict.intern (d : Dict) (s : String) : Nat × Dict :=
  match dictFind d.entries s with
  | some i => (i + 1, d)
  | none => (d.entries.length + 1, ⟨d.entries ++ [s]⟩)

/-- Operation `resolve(id) → bytes`: defined for all ids previously returned by
`intern`; id `0` is reserved and never resolves. -/
def Dict.resolve (d : Dict) (id : Nat) : Option String :=
  match id with
  | 0 => none
  | i + 1 => d.entries[i]?

/-- Read-only lookup of a string's id, used where the store is accessed
through a shared reference and may not intern. -/
def Dict.lookup (d : Dict) (s : String) : Option Nat :=
  (dictFind d.entries s).map (· + 1)

/-- The dictionary `d'` extends `d` (append-only growth). -/
def Dict.Ext (d d' : Dict) : Prop :=
  ∃ ext, d'.entries = d.entries ++ ext

theorem Dict.Ext.refl (d : Dict) : Dict.Ext d d := ⟨[], (List.append_nil _).symm⟩

theorem Dict.Ext.trans {a b c : Dict} (h1 : Dict.Ext a b) (h2 : Dict.Ext b c) :
    Dict.Ext a c := by
  obtain ⟨e1, h1⟩ := h1
  obtain ⟨e2, h2⟩ := h2
  exact ⟨e1 ++ e2, by rw [h2, h1, List.append_assoc]⟩

theorem dictFind_get {l : List String} {s : String} {i : Nat}
    (h : dictFind l s = some i) : l[i]? = some s := by
  induction l generalizing i with
  | nil => simp [dictFind] at h
  | cons e rest ih =>
    by_cases he : e = s
    · simp [dictFind, he] at h
      subst h
      simp [he]
    · simp [dictFind, he] at h
      obtain ⟨j, hj, hji⟩ := h
      subst hji
      simpa using ih hj

theorem dictFind_append_of_some {l : List String} {s : String} {i : Nat}
    {ext : List String} (h : dictFind l s = some i) :
    dictFind (l ++ ext) s = some i := by
  induction l generalizing i with
  | nil => simp [dictFind] at h
  | cons e rest ih =>
    by_cases he : e = s
    · simp [dictFind, he] at h ⊢
      exact h
    · simp [dictFind, he] at h ⊢
      obtain ⟨j, hj, hji⟩ := h
      exact ⟨j, ih hj, hji⟩

theorem dictFind_append_self {l : List String} {s : String}
    (h : dictFind l s = none) : dictFind (l ++ [s]) s = some l.length := by
  induction l with
  | nil => simp [dictFind]
  | cons e rest ih =>
    by_cases he : e = s
    · simp [dictFind, he] at h
    · simp [dictFind, he] at h
      simp [dictFind, he, ih h]

theorem getElem?_append_left' {l : List String} {i : Nat} {s : String}
    (h : l[i]? = some s) (ext : List String) : (l ++ ext)[i]? = some s := by
  have hi : i < l.length := by
    by_contra hge
    simp [List.getElem?_eq_none (Nat.le_of_not_lt hge)] at h
  simp only [List.getElem?_append, hi, if_true]
  exact h

/-- The string just interned resolves to itself in the new dictionary. -/
theorem Dict.resolve_intern (d : Dict) (s : String) :
    (d.intern s).2.resolve (d.intern s).1 = some s := by
  unfold Dict.intern
  cases h : dictFind d.entries s with
  | none =>
    simp [Dict.resolve]
  | some i =>
    simp [Dict.resolve]
    exact dictFind_get h

/-- Interning only appends to the dictionary. -/
theorem Dict.intern_ext (d : Dict) (s : String) : Dict.Ext d (d.intern s).2 := by
  unfold Dict.intern
  cases h : dictFind d.entries s with
  | none => exact ⟨[s], rfl⟩
  | some i => exact Dict.Ext.refl d

/-- Resolution is stable under dictionary extension. -/
theorem Dict.resolve_ext {d d' : Dict} (h : Dict.Ext d d') {i : Nat} {s : String}
    (hr : d.resolve i = some s) : d'.resolve i = some s := by
  obtain ⟨ext, he⟩ := h
  cases i with
  | zero => simp [Dict.resolve] at hr
  | succ j =>
    simp only [Dict.resolve] at hr ⊢
    rw [he]
    exact getElem?_append_left' hr ext

/-- Lookup is stable under dictionary extension. -/
theorem Dict.lookup_ext {d d' : Dict} (h : Dict.Ext d d') {s : String} {i : Nat}
    (hl : d.lookup s = some i) : d'.lookup s = some i := by
  obtain ⟨ext, he⟩ := h
  simp only [Dict.lookup, Option.map_eq_some'] at hl ⊢
  obtain ⟨j, hj, hji⟩ := hl
  exact ⟨j, by rw [he]; exact dictFind_append_of_some hj, hji⟩

/-- After interning `s`, looking `s` up finds the returned id. -/
theorem Dict.lookup_intern (d : Dict) (s : String) :
    (d.intern s).2.lookup s = some (d.intern s).1 := by
  unfold Dict.intern
  cases h : dictFind d.entries s with
  | none => simp [Dict.lookup, dictFind_append_self h]
  | some i => simp [Dict.lookup, h]

/-- If a lookup already succeeds, interning is the identity and returns
the found id. -/
theorem Dict.intern_of_lookup {d : Dict} {s : String} {i : Nat}
    (h : d.lookup s = some i) : d.intern s = (i, d) := by
  simp only [Dict.lookup, Option.map_eq_some'] at h
  obtain ⟨j, hj, hji⟩ := h
  simp [Dict.intern, hj, hji]

end Oxigraph

namespace Oxigraph

/-! ## Inline numeric literals (modelled from the spec, section 4.3) -/

def i64Min : Int := -(2 ^ 63)

def i64Max : Int := 2 ^ 63 - 1

/-- Parse a list of characters as decimal digits. -/
def digitsToNat : List Char → Option Nat
  | [] => none
  | cs =>
    cs.foldl
      (fun acc c =>
        acc.bind fun n => if c.isDigit then some (n * 10 + (c.toNat - 48)) else none)
      (some 0)

/-- Parse the `xsd:integer` lexical space: an optional sign followed by
decimal digits. -/
def parseInteger (s : String) : Option Int :=
  match s.data with
  | [] => none
  | c :: rest =>
    if c = '-' then (digitsToNat rest).map (fun n => -(n : Int))
    else if c = '+' then (digitsToNat rest).map (fun n => (n : Int))
    else (digitsToNat (c :: rest)).map (fun n => (n : Int))

/-- Modelled from the spec: an integer literal is inlined exactly when
its lexical form parses, the value fits the 16-byte payload as an `i64`,
and the lexical form is the canonical serialization of the value (the
spec mandates inlining only when canonical forms match, so that two
quads differing only in lexical form stay distinct). -/
def tryInlineInteger (lex : String) : Option Int :=
  match parseInteger lex with
  | some v => if i64Min ≤ v ∧ v ≤ i64Max ∧ toString v = lex then some v else none
  | none => none

/-- The canonical boolean lexical forms are inlined. -/
def tryInlineBoolean (lex : String) : Option Bool :=
  if lex = "true" then some true
  else if lex = "false" then some false
  else none

theorem tryInlineInteger_canon {lex : String} {v : Int}
    (h : tryInlineInteger lex = some v) : toString v = lex := by
  unfold tryInlineInteger at h
  cases hp : parseInteger lex with
  | none => rw [hp] at h; exact absurd h (by simp)
  | some w =>
    rw [hp] at h
    dsimp only at h
    by_cases hc : i64Min ≤ w ∧ w ≤ i64Max ∧ toString w = lex
    · rw [if_pos hc] at h
      rw [← Option.some_inj.mp h]
      exact hc.2.2
    · rw [if_neg hc] at h
      exact absurd h (by simp)

theorem tryInlineBoolean_canon {lex : String} {b : Bool}
    (h : tryInlineBoolean lex = some b) : (if b then "true" else "false") = lex := by
  unfold tryInlineBoolean at h
  by_cases h1 : lex = "true"
  · simp [h1] at h; simp [← h, h1]
  · by_cases h2 : lex = "false"
    · simp [h1, h2] at h; simp [← h, h2]
    · simp [h1, h2] at h

/-! ## Encoded terms and the codec (modelled from the spec, sections 3
and 4.3; `store/numeric_encoder.rs` is not in the provided sources).

The float, double, decimal and date-time inline variants are not
modelled (their values are outside this embedding); such literals take
the `typedLiteral` path. -/

/-- Modelled from the spec: the fixed-width tagged union referencing the
dictionary. -/
inductive EncodedTerm where
  | defaultGraph
  | namedNode (id : Nat)
  | blankNode (id : Nat)
  | stringLiteral (id : Nat)
  | langStringLiteral (lexId : Nat) (langId : Nat)
  | typedLiteral (lexId : Nat) (datatypeId : Nat)
  | booleanLiteral (b : Bool)
  | integerLiteral (v : Int)
deriving DecidableEq, Repr

/-- Encode a named node: intern the IRI. -/
def encodeNamedNode (d : Dict) (n : NamedNode) : EncodedTerm × Dict :=
  ((.namedNode (d.intern n.iri).1), (d.intern n.iri).2)

/-- Encode a typed literal through the dictionary. -/
def encodeTypedFallback (d : Dict) (lex dt : String) : EncodedTerm × Dict :=
  (.typedLiteral (d.intern lex).1 ((d.intern lex).2.intern dt).1,
   ((d.intern lex).2.intern dt).2)

/-- Modelled from the spec: encode a literal, interning strings as
needed and inlining canonical numeric forms. -/
def encodeLiteral (d : Dict) : Literal → EncodedTerm × Dict
  | .simple lex => (.stringLiteral (d.intern lex).1, (d.intern lex).2)
  | .langString lex lang =>
    (.langStringLiteral (d.intern lex).1 ((d.intern lex).2.intern lang).1,
     ((d.intern lex).2.intern lang).2)
  | .typed lex dt =>
    if dt = xsdInteger then
      match tryInlineInteger lex with
      | some v => (.integerLiteral v, d)
      | none => encodeTypedFallback d lex dt
    else if dt = xsdBoolean then
      match tryInlineBoolean lex with
      | some b => (.booleanLiteral b, d)
      | none => encodeTypedFallback d lex dt
    else encodeTypedFallback d lex dt

/-- Encode a term in object position. -/
def encodeTerm (d : Dict) : Term → EncodedTerm × Dict
  | .named n => encodeNamedNode d n
  | .blank id => (.blankNode id, d)
  | .lit l => encodeLiteral d l

/-- Encode a subject. -/
def encodeSubject (d : Dict) : NamedOrBlankNode → EncodedTerm × Dict
  | .named n => encodeNamedNode d n
  | .blank id => (.blankNode id, d)

/-- Encode a graph name. -/
def encodeGraphName (d : Dict) : GraphName → EncodedTerm × Dict
  | .named n => encodeNamedNode d n
  | .blank id => (.blankNode id, d)
  | .defaultGraph => (.defaultGraph, d)

/-- Operation `decode(encoded, dict) → term`: pure dictionary resolution.  The
inline variants decode to the canonical lexical form of their value. -/
def decodeTerm (d : Dict) : EncodedTerm → Option Term
  | .defaultGraph => none
  | .namedNode i => (d.resolve i).map (fun s => .named ⟨s⟩)
  | .blankNode n => some (.blank n)
  | .stringLiteral i => (d.resolve i).map (fun s => .lit (.simple s))
  | .langStringLiteral li gi =>
    match d.resolve li, d.resolve gi with
    | some lex, some lang => some (.lit (.langString lex lang))
    | _, _ => none
  | .typedLiteral li di =>
    match d.resolve li, d.resolve di with
    | some lex, some dt => some (.lit (.typed lex dt))
    | _, _ => none
  | .booleanLiteral b => some (.lit (.typed (if b then "true" else "false") xsdBoolean))
  | .integerLiteral v => some (.lit (.typed (toString v) xsdInteger))

/-! ### Codec lemmas -/

theorem encodeNamedNode_ext (d : Dict) (n : NamedNode) :
    Dict.Ext d (encodeNamedNode d n).2 :=
  Dict.intern_ext d n.iri

theorem encodeTypedFallback_ext (d : Dict) (lex dt : String) :
    Dict.Ext d (encodeTypedFallback d lex dt).2 :=
  (Dict.intern_ext d lex).trans (Dict.intern_ext _ dt)

theorem encodeLiteral_ext (d : Dict) (l : Literal) :
    Dict.Ext d (encodeLiteral d l).2 := by
  cases l with
  | simple lex => exact Dict.intern_ext d lex
  | langString lex lang => exact (Dict.intern_ext d lex).trans (Dict.intern_ext _ lang)
  | typed lex dt =>
    simp only [encodeLiteral]
    by_cases h1 : dt = xsdInteger
    · simp only [h1, if_true]
      cases tryInlineInteger lex with
      | some v => exact Dict.Ext.refl d
      | none => exact encodeTypedFallback_ext d lex xsdInteger
    · by_cases h2 : dt = xsdBoolean
      · simp only [h1, h2, if_false, if_true]
        cases tryInlineBoolean lex with
        | some b => exact Dict.Ext.refl d
        | none => exact encodeTypedFallback_ext d lex xsdBoolean
      · simp only [h1, h2, if_false]
        exact encodeTypedFallback_ext d lex dt

theorem encodeTerm_ext (d : Dict) (t : Term) : Dict.Ext d (encodeTerm d t).2 := by
  cases t with
  | named n => exact encodeNamedNode_ext d n
  | blank id => exact Dict.Ext.refl d
  | lit l => exact encodeLiteral_ext d l

theorem encodeSubject_ext (d : Dict) (t : NamedOrBlankNode) :
    Dict.Ext d (encodeSubject d t).2 := by
  cases t with
  | named n => exact encodeNamedNode_ext d n
  | blank id => exact Dict.Ext.refl d

theorem encodeGraphName_ext (d : Dict) (g : GraphName) :
    Dict.Ext d (encodeGraphName d g).2 := by
  cases g with
  | named n => exact encodeNamedNode_ext d n
  | blank id => exact Dict.Ext.refl d
  | defaultGraph => exact Dict.Ext.refl d

/-- Decoding is stable under dictionary extension. -/
theorem decodeTerm_ext {d d' : Dict} (h : Dict.Ext d d') {e : EncodedTerm} {t : Term}
    (hd : decodeTerm d e = some t) : decodeTerm d' e = some t := by
  cases e with
  | defaultGraph => simp [decodeTerm] at hd
  | namedNode i =>
    simp only [decodeTerm, Option.map_eq_some'] at hd ⊢
    obtain ⟨s, hs, ht⟩ := hd
    exact ⟨s, Dict.resolve_ext h hs, ht⟩
  | blankNode n => simpa [decodeTerm] using hd
  | stringLiteral i =>
    simp only [decodeTerm, Option.map_eq_some'] at hd ⊢
    obtain ⟨s, hs, ht⟩ := hd
    exact ⟨s, Dict.resolve_ext h hs, ht⟩
  | langStringLiteral li gi =>
    simp only [decodeTerm] at hd ⊢
    cases h1 : d.resolve li with
    | none => rw [h1] at hd; exact absurd hd (by simp)
    | some lex =>
      cases h2 : d.resolve gi with
      | none => rw [h1, h2] at hd; exact absurd hd (by simp)
      | some lang =>
        rw [h1, h2] at hd
        rw [Dict.resolve_ext h h1, Dict.resolve_ext h h2]
        exact hd
  | typedLiteral li di =>
    simp only [decodeTerm] at hd ⊢
    cases h1 : d.resolve li with
    | none => rw [h1] at hd; exact absurd hd (by simp)
    | some lex =>
      cases h2 : d.resolve di with
      | none => rw [h1, h2] at hd; exact absurd hd (by simp)
      | some dt =>
        rw [h1, h2] at hd
        rw [Dict.resolve_ext h h1, Dict.resolve_ext h h2]
        exact hd
  | booleanLiteral b => simpa [decodeTerm] using hd
  | integerLiteral v => simpa [decodeTerm] using hd

end Oxigraph

namespace Oxigraph

/-- Round-trip of the literal codec: decoding the encoding of any
literal yields the literal back. -/
theorem decodeTerm_encodeLiteral (d : Dict) (l : Literal) :
    decodeTerm (encodeLiteral d l).2 (encodeLiteral d l).1 = some (.lit l) := by
  cases l with
  | simple lex =>
    simp [encodeLiteral, decodeTerm, Dict.resolve_intern]
  | langString lex lang =>
    have h1 : ((d.intern lex).2.intern lang).2.resolve (d.intern lex).1 = some lex :=
      Dict.resolve_ext (Dict.intern_ext _ lang) (Dict.resolve_intern d lex)
    have h2 : ((d.intern lex).2.intern lang).2.resolve ((d.intern lex).2.intern lang).1
        = some lang := Dict.resolve_intern _ lang
    simp [encodeLiteral, decodeTerm, h1, h2]
  | typed lex dt =>
    have fallback : decodeTerm (encodeTypedFallback d lex dt).2
        (encodeTypedFallback d lex dt).1 = some (.lit (.typed lex dt)) := by
      have h1 : ((d.intern lex).2.intern dt).2.resolve (d.intern lex).1 = some lex :=
        Dict.resolve_ext (Dict.intern_ext _ dt) (Dict.resolve_intern d lex)
      have h2 : ((d.intern lex).2.intern dt).2.resolve ((d.intern lex).2.intern dt).1
          = some dt := Dict.resolve_intern _ dt
      simp [encodeTypedFallback, decodeTerm, h1, h2]
    by_cases hi : dt = xsdInteger
    · subst hi
      simp only [encodeLiteral, if_true]
      cases hv : tryInlineInteger lex with
      | some v =>
        simp only [decodeTerm, Option.some_inj]
        rw [tryInlineInteger_canon hv]
      | none => exact fallback
    · by_cases hb : dt = xsdBoolean
      · subst hb
        simp only [encodeLiteral, hi, if_false, if_true]
        cases hv : tryInlineBoolean lex with
        | some b =>
          simp only [decodeTerm, Option.some_inj]
          rw [tryInlineBoolean_canon hv]
        | none => exact fallback
      · simp only [encodeLiteral, hi, hb, if_false]
        exact fallback

/-- C3: for every term `t` constructible by the public term constructors
and every dictionary `d`, decoding the encoding of `t` with the
dictionary produced by the encoding returns `t`:
`decode(encode(t, dict), dict) = t`. -/
theorem C3_term_codec_round_trip (d : Dict) (t : Term) (h : t.Constructible) :
    decodeTerm (encodeTerm d t).2 (encodeTerm d t).1 = some t := by
  clear h
  cases t with
  | named n =>
    cases n with
    | mk iri => simp [encodeTerm, encodeNamedNode, decodeTerm, Dict.resolve_intern]
  | blank id => simp [encodeTerm, decodeTerm]
  | lit l => exact decodeTerm_encodeLiteral d l

/-- Witness for C3 at a concrete term and the empty dictionary. -/
theorem C3_term_codec_round_trip_witness :
    (Term.lit (Literal.langString "chat" "fr")).Constructible ∧
    decodeTerm (encodeTerm Dict.empty (Term.lit (Literal.langString "chat" "fr"))).2
        (encodeTerm Dict.empty (Term.lit (Literal.langString "chat" "fr"))).1 =
      some (Term.lit (Literal.langString "chat" "fr")) :=
  ⟨trivial, C3_term_codec_round_trip Dict.empty _ trivial⟩

/-- C8: constructing a `NamedNode` from a string succeeds with string
content equal to the input exactly when the input passes the RFC 3987
parse, and otherwise fails with `InvalidIri`. -/
theorem C8_named_node_new_validates (isValidIri : String → Bool) (iri : String) :
    ((∃ n, NamedNode.new isValidIri iri = .ok n ∧ n.as_str = iri) ↔
      isValidIri iri = true) ∧
    (isValidIri iri = false → NamedNode.new isValidIri iri = .error .invalidIri) := by
  constructor
  · constructor
    · rintro ⟨n, hn, hs⟩
      by_cases h : isValidIri iri
      · exact h
      · simp [NamedNode.new, h] at hn
    · intro h
      exact ⟨⟨iri⟩, by simp [NamedNode.new, h], rfl⟩
  · intro h
    simp [NamedNode.new, h]

/-- Witness for C8: a nonempty-string validator accepts a concrete IRI
and rejects the empty string. -/
theorem C8_named_node_new_validates_witness :
    (∃ n, NamedNode.new (fun s => !s.isEmpty) "http://example.com/foo" = .ok n ∧
      n.as_str = "http://example.com/foo") ∧
    NamedNode.new (fun s => !s.isEmpty) "" = .error .invalidIri :=
  ⟨(C8_named_node_new_validates (fun s => !s.isEmpty) "http://example.com/foo").1.mpr
      (by decide),
    (C8_named_node_new_validates (fun s => !s.isEmpty) "").2 (by decide)⟩

/-- C9: `NamedNode::new_unchecked` accepts any string, preserves its
content exactly (no IRI validation), and equality and display go by the
raw string content. -/
theorem C9_new_unchecked_no_validation (s : String) :
    (NamedNode.new_unchecked s).as_str = s ∧
    (∀ t, NamedNode.new_unchecked s = NamedNode.new_unchecked t ↔ s = t) ∧
    NamedNode.display (NamedNode.new_unchecked s) = "<" ++ s ++ ">" := by
  refine ⟨rfl, fun t => ?_, rfl⟩
  constructor
  · intro h
    exact congrArg NamedNode.iri h
  · intro h
    rw [h]

/-- Witness for C9: a string that is not an IRI is accepted verbatim. -/
theorem C9_new_unchecked_no_validation_witness :
    (NamedNode.new_unchecked "not an iri").as_str = "not an iri" :=
  (C9_new_unchecked_no_validation "not an iri").1

end Oxigraph

namespace Oxigraph

/-! ## Encoded quads and the six-index store (modelled from the spec,
section 4.4; `store/memory.rs` is not in the provided sources) -/

/-- Modelled from the spec: a quad of encoded terms. -/
structure EncodedQuad where
  subject : EncodedTerm
  predicate : EncodedTerm
  object : EncodedTerm
  graphName : EncodedTerm
deriving DecidableEq, Repr

/-- Modelled from the spec: the total order on encoded terms is by
(discriminant, payload), flattened here into a list of naturals compared
lexicographically.  The inline integer payload is compared through its
64-bit two's-complement image. -/
def EncodedTerm.keyParts : EncodedTerm → List Nat
  | .defaultGraph => [0, 0, 0]
  | .namedNode i => [1, i, 0]
  | .blankNode i => [2, i, 0]
  | .stringLiteral i => [3, i, 0]
  | .langStringLiteral li gi => [4, li, gi]
  | .typedLiteral li di => [5, li, di]
  | .booleanLiteral b => [6, cond b 1 0, 0]
  | .integerLiteral v => [7, (v % (2 ^ 64 : Int)).toNat, 0]

/-- Lexicographic comparison of flattened keys. -/
def listNatLe : List Nat → List Nat → Bool
  | [], _ => true
  | _ :: _, [] => false
  | a :: as, b :: bs => if a < b then true else if b < a then false else listNatLe as bs

/-- The six key permutations (spec section 4.4). -/
def spogKey (q : EncodedQuad) : List Nat :=
  q.subject.keyParts ++ q.predicate.keyParts ++ q.object.keyParts ++ q.graphName.keyParts

def posgKey (q : EncodedQuad) : List Nat :=
  q.predicate.keyParts ++ q.object.keyParts ++ q.subject.keyParts ++ q.graphName.keyParts

def ospgKey (q : EncodedQuad) : List Nat :=
  q.object.keyParts ++ q.subject.keyParts ++ q.predicate.keyParts ++ q.graphName.keyParts

def gspoKey (q : EncodedQuad) : List Nat :=
  q.graphName.keyParts ++ q.subject.keyParts ++ q.predicate.keyParts ++ q.object.keyParts

def gposKey (q : EncodedQuad) : List Nat :=
  q.graphName.keyParts ++ q.predicate.keyParts ++ q.object.keyParts ++ q.subject.keyParts

def gospKey (q : EncodedQuad) : List Nat :=
  q.graphName.keyParts ++ q.object.keyParts ++ q.subject.keyParts ++ q.predicate.keyParts

/-- Sort order of one index. -/
def idxLe (key : EncodedQuad → List Nat) (a b : EncodedQuad) : Prop :=
  listNatLe (key a) (key b) = true

instance (key : EncodedQuad → List Nat) : DecidableRel (idxLe key) := fun a b =>
  instDecidableEqBool (listNatLe (key a) (key b)) true

/-- Modelled from the spec: adding a quad to one sorted index, a no-op
when the quad is already present. -/
def idxInsert (key : EncodedQuad → List Nat) (q : EncodedQuad)
    (l : List EncodedQuad) : List EncodedQuad :=
  if q ∈ l then l else List.orderedInsert (idxLe key) q l

theorem idxInsert_mem_self (key : EncodedQuad → List Nat) (q : EncodedQuad)
    (l : List EncodedQuad) : q ∈ idxInsert key q l := by
  unfold idxInsert
  by_cases h : q ∈ l
  · simpa [h]
  · simp only [h, if_false]
    exact (List.mem_orderedInsert (idxLe key)).mpr (Or.inl rfl)

theorem idxInsert_of_mem (key : EncodedQuad → List Nat) {q : EncodedQuad}
    {l : List EncodedQuad} (h : q ∈ l) : idxInsert key q l = l := by
  simp [idxInsert, h]

theorem idxInsert_length_of_not_mem (key : EncodedQuad → List Nat) {q : EncodedQuad}
    {l : List EncodedQuad} (h : q ∉ l) :
    (idxInsert key q l).length = l.length + 1 := by
  simp [idxInsert, h, List.orderedInsert_length]

theorem idxInsert_mem_mono (key : EncodedQuad → List Nat) (q : EncodedQuad)
    {p : EncodedQuad} {l : List EncodedQuad} (h : p ∈ l) : p ∈ idxInsert key q l := by
  unfold idxInsert
  by_cases hm : q ∈ l
  · simpa [hm]
  · simp only [hm, if_false]
    exact (List.mem_orderedInsert (idxLe key)).mpr (Or.inr h)

/-- The inserted index is a permutation of consing the quad (or equal,
when already present). -/
theorem idxInsert_perm (key : EncodedQuad → List Nat) (q : EncodedQuad)
    (l : List EncodedQuad) :
    (q ∈ l ∧ idxInsert key q l = l) ∨ (q ∉ l ∧ (idxInsert key q l).Perm (q :: l)) := by
  by_cases h : q ∈ l
  · exact Or.inl ⟨h, idxInsert_of_mem key h⟩
  · refine Or.inr ⟨h, ?_⟩
    simp only [idxInsert, h, if_false]
    exact List.perm_orderedInsert (idxLe key) q l

/-- Modelled from the spec: the in-memory store, a string dictionary,
the writer-owned monotonic blank-node id counter and six sorted indexes
over encoded quads. -/
structure MemoryStore where
  dict : Dict
  bnodeCounter : Nat
  spog : List EncodedQuad
  posg : List EncodedQuad
  ospg : List EncodedQuad
  gspo : List EncodedQuad
  gpos : List EncodedQuad
  gosp : List EncodedQuad
deriving DecidableEq, Repr

def MemoryStore.empty : MemoryStore := ⟨Dict.empty, 0, [], [], [], [], [], []⟩

/-- Operation `insert_encoded`: atomically add the encoded quad to all six
indexes; each addition is a no-op when the quad is already present. -/
def MemoryStore.insertEncoded (S : MemoryStore) (q : EncodedQuad) : MemoryStore :=
  { S with
    spog := idxInsert spogKey q S.spog
    posg := idxInsert posgKey q S.posg
    ospg := idxInsert ospgKey q S.ospg
    gspo := idxInsert gspoKey q S.gspo
    gpos := idxInsert gposKey q S.gpos
    gosp := idxInsert gospKey q S.gosp }

/-- Operation `remove_encoded`: delete the encoded quad from all six indexes. -/
def MemoryStore.removeEncoded (S : MemoryStore) (q : EncodedQuad) : MemoryStore :=
  { S with
    spog := S.spog.erase q
    posg := S.posg.erase q
    ospg := S.ospg.erase q
    gspo := S.gspo.erase q
    gpos := S.gpos.erase q
    gosp := S.gosp.erase q }

end Oxigraph

namespace Oxigraph

/-! ## Read-only encoding (used by `contains`/`remove`, which take the
store through a shared reference and therefore cannot intern) -/

def encodeNamedNodeLookup (d : Dict) (n : NamedNode) : Option EncodedTerm :=
  (d.lookup n.iri).map .namedNode

def typedFallbackLookup (d : Dict) (lex dt : String) : Option EncodedTerm :=
  match d.lookup lex, d.lookup dt with
  | some li, some di => some (.typedLiteral li di)
  | _, _ => none

def encodeLiteralLookup (d : Dict) : Literal → Option EncodedTerm
  | .simple lex => (d.lookup lex).map .stringLiteral
  | .langString lex lang =>
    match d.lookup lex, d.lookup lang with
    | some li, some gi => some (.langStringLiteral li gi)
    | _, _ => none
  | .typed lex dt =>
    if dt = xsdInteger then
      match tryInlineInteger lex with
      | some v => some (.integerLiteral v)
      | none => typedFallbackLookup d lex dt
    else if dt = xsdBoolean then
      match tryInlineBoolean lex with
      | some b => some (.booleanLiteral b)
      | none => typedFallbackLookup d lex dt
    else typedFallbackLookup d lex dt

def encodeTermLookup (d : Dict) : Term → Option EncodedTerm
  | .named n => encodeNamedNodeLookup d n
  | .blank id => some (.blankNode id)
  | .lit l => encodeLiteralLookup d l

def encodeSubjectLookup (d : Dict) : NamedOrBlankNode → Option EncodedTerm
  | .named n => encodeNamedNodeLookup d n
  | .blank id => some (.blankNode id)

def encodeGraphNameLookup (d : Dict) : GraphName → Option EncodedTerm
  | .named n => encodeNamedNodeLookup d n
  | .blank id => some (.blankNode id)
  | .defaultGraph => some .defaultGraph

/-! ## Dictionary validity of encoded terms -/

/-- The id resolves in the dictionary. -/
def Dict.ValidId (d : Dict) (i : Nat) : Prop := d.resolve i ≠ none

/-- Every dictionary reference of the encoded term resolves. -/
def EncodedTerm.validIn : EncodedTerm → Dict → Prop
  | .namedNode i, d => d.ValidId i
  | .stringLiteral i, d => d.ValidId i
  | .langStringLiteral li gi, d => d.ValidId li ∧ d.ValidId gi
  | .typedLiteral li di, d => d.ValidId li ∧ d.ValidId di
  | _, _ => True

def EncodedQuad.validIn (q : EncodedQuad) (d : Dict) : Prop :=
  q.subject.validIn d ∧ q.predicate.validIn d ∧ q.object.validIn d ∧
    q.graphName.validIn d

theorem Dict.validId_of_ext {d d' : Dict} (h : Dict.Ext d d') {i : Nat}
    (hv : d.ValidId i) : d'.ValidId i := by
  unfold Dict.ValidId at hv ⊢
  cases hr : d.resolve i with
  | none => exact absurd hr hv
  | some s =>
    rw [Dict.resolve_ext h hr]
    simp

theorem EncodedTerm.validIn_of_ext {d d' : Dict} (h : Dict.Ext d d') {e : EncodedTerm}
    (hv : e.validIn d) : e.validIn d' := by
  cases e <;> simp only [EncodedTerm.validIn] at hv ⊢
  · exact Dict.validId_of_ext h hv
  · exact Dict.validId_of_ext h hv
  · exact ⟨Dict.validId_of_ext h hv.1, Dict.validId_of_ext h hv.2⟩
  · exact ⟨Dict.validId_of_ext h hv.1, Dict.validId_of_ext h hv.2⟩

theorem EncodedQuad.validIn_mono {d d' : Dict} (h : Dict.Ext d d') {q : EncodedQuad}
    (hv : q.validIn d) : q.validIn d' :=
  ⟨EncodedTerm.validIn_of_ext h hv.1, EncodedTerm.validIn_of_ext h hv.2.1,
   EncodedTerm.validIn_of_ext h hv.2.2.1, EncodedTerm.validIn_of_ext h hv.2.2.2⟩

/-- Interning a string absent from the dictionary allocates the id just
past the current entries, which does not resolve in the old dictionary. -/
theorem Dict.intern_fresh {d : Dict} {s : String} (h : d.lookup s = none) :
    (d.intern s).2 = ⟨d.entries ++ [s]⟩ ∧ ¬ d.ValidId (d.intern s).1 := by
  simp only [Dict.lookup, Option.map_eq_none'] at h
  refine ⟨by simp [Dict.intern, h], ?_⟩
  simp only [Dict.intern, h, Dict.ValidId, Dict.resolve]
  simp [List.getElem?_eq_none (Nat.le_refl d.entries.length)]

end Oxigraph

namespace Oxigraph

/-! ### Relating interning encoding and read-only encoding -/

theorem encodeNamedNode_lookup (d : Dict) (n : NamedNode) :
    encodeNamedNodeLookup (encodeNamedNode d n).2 n = some (encodeNamedNode d n).1 := by
  simp [encodeNamedNode, encodeNamedNodeLookup, Dict.lookup_intern]

theorem typedFallback_lookup (d : Dict) (lex dt : String) :
    typedFallbackLookup (encodeTypedFallback d lex dt).2 lex dt
      = some (encodeTypedFallback d lex dt).1 := by
  have h1 : ((d.intern lex).2.intern dt).2.lookup lex = some (d.intern lex).1 :=
    Dict.lookup_ext (Dict.intern_ext _ dt) (Dict.lookup_intern d lex)
  have h2 : ((d.intern lex).2.intern dt).2.lookup dt
      = some ((d.intern lex).2.intern dt).1 := Dict.lookup_intern _ dt
  simp [encodeTypedFallback, typedFallbackLookup, h1, h2]

theorem encodeLiteral_lookup (d : Dict) (l : Literal) :
    encodeLiteralLookup (encodeLiteral d l).2 l = some (encodeLiteral d l).1 := by
  cases l with
  | simple lex =>
    simp [encodeLiteral, encodeLiteralLookup, Dict.lookup_intern]
  | langString lex lang =>
    have h1 : ((d.intern lex).2.intern lang).2.lookup lex = some (d.intern lex).1 :=
      Dict.lookup_ext (Dict.intern_ext _ lang) (Dict.lookup_intern d lex)
    have h2 : ((d.intern lex).2.intern lang).2.lookup lang
        = some ((d.intern lex).2.intern lang).1 := Dict.lookup_intern _ lang
    simp [encodeLiteral, encodeLiteralLookup, h1, h2]
  | typed lex dt =>
    by_cases hi : dt = xsdInteger
    · subst hi
      cases hv : tryInlineInteger lex with
      | some v => simp [encodeLiteral, encodeLiteralLookup, hv]
      | none =>
        simp only [encodeLiteral, encodeLiteralLookup, if_pos rfl, hv]
        exact typedFallback_lookup d lex xsdInteger
    · by_cases hb : dt = xsdBoolean
      · subst hb
        cases hv : tryInlineBoolean lex with
        | some b => simp [encodeLiteral, encodeLiteralLookup, hi, hv]
        | none =>
          simp only [encodeLiteral, encodeLiteralLookup, hi, if_false, if_pos rfl, hv]
          exact typedFallback_lookup d lex xsdBoolean
      · simp only [encodeLiteral, encodeLiteralLookup, hi, hb, if_false]
        exact typedFallback_lookup d lex dt

theorem encodeTerm_lookup (d : Dict) (t : Term) :
    encodeTermLookup (encodeTerm d t).2 t = some (encodeTerm d t).1 := by
  cases t with
  | named n => exact encodeNamedNode_lookup d n
  | blank id => rfl
  | lit l => exact encodeLiteral_lookup d l

theorem encodeSubject_lookup (d : Dict) (t : NamedOrBlankNode) :
    encodeSubjectLookup (encodeSubject d t).2 t = some (encodeSubject d t).1 := by
  cases t with
  | named n => exact encodeNamedNode_lookup d n
  | blank id => rfl

theorem encodeGraphName_lookup (d : Dict) (g : GraphName) :
    encodeGraphNameLookup (encodeGraphName d g).2 g = some (encodeGraphName d g).1 := by
  cases g with
  | named n => exact encodeNamedNode_lookup d n
  | blank id => rfl
  | defaultGraph => rfl

theorem encodeNamedNodeLookup_ext {d d' : Dict} (h : Dict.Ext d d') {n : NamedNode}
    {e : EncodedTerm} (hl : encodeNamedNodeLookup d n = some e) :
    encodeNamedNodeLookup d' n = some e := by
  simp only [encodeNamedNodeLookup, Option.map_eq_some'] at hl ⊢
  obtain ⟨i, hi, he⟩ := hl
  exact ⟨i, Dict.lookup_ext h hi, he⟩

theorem typedFallbackLookup_ext {d d' : Dict} (h : Dict.Ext d d') {lex dt : String}
    {e : EncodedTerm} (hl : typedFallbackLookup d lex dt = some e) :
    typedFallbackLookup d' lex dt = some e := by
  unfold typedFallbackLookup at hl ⊢
  cases h1 : d.lookup lex with
  | none => rw [h1] at hl; exact absurd hl (by simp)
  | some li =>
    cases h2 : d.lookup dt with
    | none => rw [h1, h2] at hl; exact absurd hl (by simp)
    | some di =>
      rw [h1, h2] at hl
      rw [Dict.lookup_ext h h1, Dict.lookup_ext h h2]
      exact hl

theorem encodeLiteralLookup_ext {d d' : Dict} (h : Dict.Ext d d') {l : Literal}
    {e : EncodedTerm} (hl : encodeLiteralLookup d l = some e) :
    encodeLiteralLookup d' l = some e := by
  cases l with
  | simple lex =>
    simp only [encodeLiteralLookup, Option.map_eq_some'] at hl ⊢
    obtain ⟨i, hi, he⟩ := hl
    exact ⟨i, Dict.lookup_ext h hi, he⟩
  | langString lex lang =>
    simp only [encodeLiteralLookup] at hl ⊢
    cases h1 : d.lookup lex with
    | none => rw [h1] at hl; exact absurd hl (by simp)
    | some li =>
      cases h2 : d.lookup lang with
      | none => rw [h1, h2] at hl; exact absurd hl (by simp)
      | some gi =>
        rw [h1, h2] at hl
        rw [Dict.lookup_ext h h1, Dict.lookup_ext h h2]
        exact hl
  | typed lex dt =>
    simp only [encodeLiteralLookup] at hl ⊢
    by_cases hi : dt = xsdInteger
    · subst hi
      simp only [if_pos rfl] at hl ⊢
      cases hv : tryInlineInteger lex with
      | some v => rw [hv] at hl; simpa using hl
      | none =>
        rw [hv] at hl
        exact typedFallbackLookup_ext h (by simpa using hl)
    · by_cases hb : dt = xsdBoolean
      · subst hb
        simp only [hi, if_false, if_pos rfl] at hl ⊢
        cases hv : tryInlineBoolean lex with
        | some b => rw [hv] at hl; simpa using hl
        | none =>
          rw [hv] at hl
          exact typedFallbackLookup_ext h (by simpa using hl)
      · simp only [hi, hb, if_false] at hl ⊢
        exact typedFallbackLookup_ext h hl

theorem encodeTermLookup_ext {d d' : Dict} (h : Dict.Ext d d') {t : Term}
    {e : EncodedTerm} (hl : encodeTermLookup d t = some e) :
    encodeTermLookup d' t = some e := by
  cases t with
  | named n => exact encodeNamedNodeLookup_ext h hl
  | blank id => exact hl
  | lit l => exact encodeLiteralLookup_ext h hl

theorem encodeSubjectLookup_ext {d d' : Dict} (h : Dict.Ext d d')
    {t : NamedOrBlankNode} {e : EncodedTerm} (hl : encodeSubjectLookup d t = some e) :
    encodeSubjectLookup d' t = some e := by
  cases t with
  | named n => exact encodeNamedNodeLookup_ext h hl
  | blank id => exact hl

theorem encodeGraphNameLookup_ext {d d' : Dict} (h : Dict.Ext d d') {g : GraphName}
    {e : EncodedTerm} (hl : encodeGraphNameLookup d g = some e) :
    encodeGraphNameLookup d' g = some e := by
  cases g with
  | named n => exact encodeNamedNodeLookup_ext h hl
  | blank id => exact hl
  | defaultGraph => exact hl

end Oxigraph

namespace Oxigraph

theorem encodeNamedNode_of_lookup {d : Dict} {n : NamedNode} {e : EncodedTerm}
    (h : encodeNamedNodeLookup d n = some e) : encodeNamedNode d n = (e, d) := by
  simp only [encodeNamedNodeLookup, Option.map_eq_some'] at h
  obtain ⟨i, hi, he⟩ := h
  simp [encodeNamedNode, Dict.intern_of_lookup hi, ← he]

theorem typedFallback_of_lookup {d : Dict} {lex dt : String} {e : EncodedTerm}
    (h : typedFallbackLookup d lex dt = some e) : encodeTypedFallback d lex dt = (e, d) := by
  unfold typedFallbackLookup at h
  cases h1 : d.lookup lex with
  | none => rw [h1] at h; exact absurd h (by simp)
  | some li =>
    cases h2 : d.lookup dt with
    | none => rw [h1, h2] at h; exact absurd h (by simp)
    | some di =>
      rw [h1, h2] at h
      rw [Option.some_inj] at h
      simp [encodeTypedFallback, Dict.intern_of_lookup h1, Dict.intern_of_lookup h2, ← h]

theorem encodeLiteral_of_lookup {d : Dict} {l : Literal} {e : EncodedTerm}
    (h : encodeLiteralLookup d l = some e) : encodeLiteral d l = (e, d) := by
  cases l with
  | simple lex =>
    simp only [encodeLiteralLookup, Option.map_eq_some'] at h
    obtain ⟨i, hi, he⟩ := h
    simp [encodeLiteral, Dict.intern_of_lookup hi, ← he]
  | langString lex lang =>
    simp only [encodeLiteralLookup] at h
    cases h1 : d.lookup lex with
    | none => rw [h1] at h; exact absurd h (by simp)
    | some li =>
      cases h2 : d.lookup lang with
      | none => rw [h1, h2] at h; exact absurd h (by simp)
      | some gi =>
        rw [h1, h2] at h
        rw [Option.some_inj] at h
        simp [encodeLiteral, Dict.intern_of_lookup h1, Dict.intern_of_lookup h2, ← h]
  | typed lex dt =>
    simp only [encodeLiteralLookup] at h
    by_cases hi : dt = xsdInteger
    · subst hi
      simp only [if_pos rfl] at h
      simp only [encodeLiteral, if_pos rfl]
      cases hv : tryInlineInteger lex with
      | some v => rw [hv] at h; simpa using h
      | none =>
        rw [hv] at h
        exact typedFallback_of_lookup (by simpa using h)
    · by_cases hb : dt = xsdBoolean
      · subst hb
        simp only [hi, if_false, if_pos rfl] at h
        simp only [encodeLiteral, hi, if_false, if_pos rfl]
        cases hv : tryInlineBoolean lex with
        | some b => rw [hv] at h; simpa using h
        | none =>
          rw [hv] at h
          exact typedFallback_of_lookup (by simpa using h)
      · simp only [hi, hb, if_false] at h
        simp only [encodeLiteral, hi, hb, if_false]
        exact typedFallback_of_lookup h

theorem encodeTerm_of_lookup {d : Dict} {t : Term} {e : EncodedTerm}
    (h : encodeTermLookup d t = some e) : encodeTerm d t = (e, d) := by
  cases t with
  | named n => exact encodeNamedNode_of_lookup h
  | blank id => simpa [encodeTerm, encodeTermLookup] using h
  | lit l => exact encodeLiteral_of_lookup h

theorem encodeSubject_of_lookup {d : Dict} {t : NamedOrBlankNode} {e : EncodedTerm}
    (h : encodeSubjectLookup d t = some e) : encodeSubject d t = (e, d) := by
  cases t with
  | named n => exact encodeNamedNode_of_lookup h
  | blank id => simpa [encodeSubject, encodeSubjectLookup] using h

theorem encodeGraphName_of_lookup {d : Dict} {g : GraphName} {e : EncodedTerm}
    (h : encodeGraphNameLookup d g = some e) : encodeGraphName d g = (e, d) := by
  cases g with
  | named n => exact encodeNamedNode_of_lookup h
  | blank id => simpa [encodeGraphName, encodeGraphNameLookup] using h
  | defaultGraph => simpa [encodeGraphName, encodeGraphNameLookup] using h

theorem encodeNamedNode_fresh {d : Dict} {n : NamedNode}
    (h : encodeNamedNodeLookup d n = none) : ¬ (encodeNamedNode d n).1.validIn d := by
  simp only [encodeNamedNodeLookup, Option.map_eq_none'] at h
  simp only [encodeNamedNode, EncodedTerm.validIn]
  exact (Dict.intern_fresh h).2

theorem typedFallback_fresh {d : Dict} {lex dt : String}
    (h : typedFallbackLookup d lex dt = none) :
    ¬ (encodeTypedFallback d lex dt).1.validIn d := by
  unfold typedFallbackLookup at h
  simp only [encodeTypedFallback, EncodedTerm.validIn]
  cases h1 : d.lookup lex with
  | none =>
    intro hv
    exact (Dict.intern_fresh h1).2 hv.1
  | some li =>
    cases h2 : d.lookup dt with
    | none =>
      intro hv
      have he : d.intern lex = (li, d) := Dict.intern_of_lookup h1
      have hfresh : ¬ d.ValidId ((d.intern lex).2.intern dt).1 := by
        rw [he]
        exact (Dict.intern_fresh h2).2
      exact hfresh hv.2
    | some di =>
      rw [h1, h2] at h
      exact absurd h (by simp)

theorem encodeLiteral_fresh {d : Dict} {l : Literal}
    (h : encodeLiteralLookup d l = none) : ¬ (encodeLiteral d l).1.validIn d := by
  cases l with
  | simple lex =>
    simp only [encodeLiteralLookup, Option.map_eq_none'] at h
    simp only [encodeLiteral, EncodedTerm.validIn]
    exact (Dict.intern_fresh h).2
  | langString lex lang =>
    simp only [encodeLiteralLookup] at h
    simp only [encodeLiteral, EncodedTerm.validIn]
    cases h1 : d.lookup lex with
    | none =>
      intro hv
      exact (Dict.intern_fresh h1).2 hv.1
    | some li =>
      cases h2 : d.lookup lang with
      | none =>
        intro hv
        have he : d.intern lex = (li, d) := Dict.intern_of_lookup h1
        have hfresh : ¬ d.ValidId ((d.intern lex).2.intern lang).1 := by
          rw [he]
          exact (Dict.intern_fresh h2).2
        exact hfresh hv.2
      | some gi =>
        rw [h1, h2] at h
        exact absurd h (by simp)
  | typed lex dt =>
    simp only [encodeLiteralLookup] at h
    by_cases hi : dt = xsdInteger
    · subst hi
      simp only [if_pos rfl] at h
      simp only [encodeLiteral, if_pos rfl]
      cases hv : tryInlineInteger lex with
      | some v => rw [hv] at h; exact absurd h (by simp)
      | none =>
        rw [hv] at h
        exact typedFallback_fresh (by simpa using h)
    · by_cases hb : dt = xsdBoolean
      · subst hb
        simp only [hi, if_false, if_pos rfl] at h
        simp only [encodeLiteral, hi, if_false, if_pos rfl]
        cases hv : tryInlineBoolean lex with
        | some b => rw [hv] at h; exact absurd h (by simp)
        | none =>
          rw [hv] at h
          exact typedFallback_fresh (by simpa using h)
      · simp only [hi, hb, if_false] at h
        simp only [encodeLiteral, hi, hb, if_false]
        exact typedFallback_fresh h

theorem encodeTerm_fresh {d : Dict} {t : Term}
    (h : encodeTermLookup d t = none) : ¬ (encodeTerm d t).1.validIn d := by
  cases t with
  | named n => exact encodeNamedNode_fresh h
  | blank id => simp [encodeTermLookup] at h
  | lit l => exact encodeLiteral_fresh h

theorem encodeSubject_fresh {d : Dict} {t : NamedOrBlankNode}
    (h : encodeSubjectLookup d t = none) : ¬ (encodeSubject d t).1.validIn d := by
  cases t with
  | named n => exact encodeNamedNode_fresh h
  | blank id => simp [encodeSubjectLookup] at h

theorem encodeGraphName_fresh {d : Dict} {g : GraphName}
    (h : encodeGraphNameLookup d g = none) : ¬ (encodeGraphName d g).1.validIn d := by
  cases g with
  | named n => exact encodeNamedNode_fresh h
  | blank id => simp [encodeGraphNameLookup] at h
  | defaultGraph => simp [encodeGraphNameLookup] at h

end Oxigraph

namespace Oxigraph

/-! ## Quad encoding and the public store operations (modelled from the
spec, section 4.4) -/

/-- Encode a quad, interning strings position by position (subject,
then predicate, object and graph name, threading the dictionary). -/
def encodeQuad (d : Dict) (q : Quad) : EncodedQuad × Dict :=
  (⟨(encodeSubject d q.subject).1,
    (encodeNamedNode (encodeSubject d q.subject).2 q.predicate).1,
    (encodeTerm (encodeNamedNode (encodeSubject d q.subject).2 q.predicate).2 q.object).1,
    (encodeGraphName (encodeTerm (encodeNamedNode (encodeSubject d q.subject).2
        q.predicate).2 q.object).2 q.graphName).1⟩,
   (encodeGraphName (encodeTerm (encodeNamedNode (encodeSubject d q.subject).2
       q.predicate).2 q.object).2 q.graphName).2)

/-- Read-only quad encoding: fails when any referenced string is absent
from the dictionary (in which case the quad cannot be stored). -/
def encodeQuadLookup (d : Dict) (q : Quad) : Option EncodedQuad :=
  match encodeSubjectLookup d q.subject, encodeNamedNodeLookup d q.predicate,
      encodeTermLookup d q.object, encodeGraphNameLookup d q.graphName with
  | some s, some p, some o, some g => some ⟨s, p, o, g⟩
  | _, _, _, _ => none

theorem encodeQuad_ext (d : Dict) (q : Quad) : Dict.Ext d (encodeQuad d q).2 := by
  unfold encodeQuad
  exact ((encodeSubject_ext d q.subject).trans
    (encodeNamedNode_ext _ q.predicate)).trans
    ((encodeTerm_ext _ q.object).trans (encodeGraphName_ext _ q.graphName))

/-- After an interning encode, a read-only encode on the new dictionary
finds the same encoded quad. -/
theorem encodeQuad_lookup (d : Dict) (q : Quad) :
    encodeQuadLookup (encodeQuad d q).2 q = some (encodeQuad d q).1 := by
  unfold encodeQuad
  have hs0 := encodeSubject_lookup d q.subject
  have hp0 := encodeNamedNode_lookup (encodeSubject d q.subject).2 q.predicate
  have ho0 := encodeTerm_lookup (encodeNamedNode (encodeSubject d q.subject).2 q.predicate).2 q.object
  have hg0 := encodeGraphName_lookup (encodeTerm (encodeNamedNode (encodeSubject d q.subject).2 q.predicate).2 q.object).2 q.graphName
  have e1 : Dict.Ext (encodeSubject d q.subject).2
      (encodeNamedNode (encodeSubject d q.subject).2 q.predicate).2 :=
    encodeNamedNode_ext _ q.predicate
  have e2 : Dict.Ext (encodeNamedNode (encodeSubject d q.subject).2 q.predicate).2
      (encodeTerm (encodeNamedNode (encodeSubject d q.subject).2 q.predicate).2 q.object).2 :=
    encodeTerm_ext _ q.object
  have e3 : Dict.Ext (encodeTerm (encodeNamedNode (encodeSubject d q.subject).2 q.predicate).2 q.object).2
      (encodeGraphName (encodeTerm (encodeNamedNode (encodeSubject d q.subject).2 q.predicate).2 q.object).2 q.graphName).2 :=
    encodeGraphName_ext _ q.graphName
  have hs := encodeSubjectLookup_ext e3 (encodeSubjectLookup_ext e2 (encodeSubjectLookup_ext e1 hs0))
  have hp := encodeNamedNodeLookup_ext e3 (encodeNamedNodeLookup_ext e2 hp0)
  have hob := encodeTermLookup_ext e3 ho0
  simp only [encodeQuadLookup, hs, hp, hob, hg0]

/-- A read-only encode that succeeds coincides with the interning
encode, which then leaves the dictionary unchanged. -/
theorem encodeQuad_of_lookup {d : Dict} {q : Quad} {eq : EncodedQuad}
    (h : encodeQuadLookup d q = some eq) : encodeQuad d q = (eq, d) := by
  unfold encodeQuadLookup at h
  cases hs : encodeSubjectLookup d q.subject with
  | none => rw [hs] at h; exact absurd h (by simp)
  | some es =>
    cases hp : encodeNamedNodeLookup d q.predicate with
    | none => rw [hs, hp] at h; exact absurd h (by simp)
    | some ep =>
      cases ho : encodeTermLookup d q.object with
      | none => rw [hs, hp, ho] at h; exact absurd h (by simp)
      | some eo =>
        cases hg : encodeGraphNameLookup d q.graphName with
        | none => rw [hs, hp, ho, hg] at h; exact absurd h (by simp)
        | some eg =>
          rw [hs, hp, ho, hg] at h
          rw [Option.some_inj] at h
          unfold encodeQuad
          rw [encodeSubject_of_lookup hs]
          simp only
          rw [encodeNamedNode_of_lookup hp]
          simp only
          rw [encodeTerm_of_lookup ho]
          simp only
          rw [encodeGraphName_of_lookup hg]
          simp [← h]

/-- When the read-only encode fails, the interning encode allocates at
least one id that does not resolve in the original dictionary. -/
theorem encodeQuad_fresh {d : Dict} {q : Quad}
    (h : encodeQuadLookup d q = none) : ¬ (encodeQuad d q).1.validIn d := by
  unfold encodeQuadLookup at h
  unfold encodeQuad
  cases hs : encodeSubjectLookup d q.subject with
  | none =>
    intro hv
    exact encodeSubject_fresh hs hv.1
  | some es =>
    have hse : encodeSubject d q.subject = (es, d) := encodeSubject_of_lookup hs
    cases hp : encodeNamedNodeLookup d q.predicate with
    | none =>
      intro hv
      have : ¬ (encodeNamedNode (encodeSubject d q.subject).2 q.predicate).1.validIn d := by
        rw [hse]
        exact encodeNamedNode_fresh hp
      exact this hv.2.1
    | some ep =>
      have hpe : encodeNamedNode (encodeSubject d q.subject).2 q.predicate = (ep, d) := by
        rw [hse]
        exact encodeNamedNode_of_lookup hp
      cases ho : encodeTermLookup d q.object with
      | none =>
        intro hv
        have : ¬ (encodeTerm (encodeNamedNode (encodeSubject d q.subject).2 q.predicate).2 q.object).1.validIn d := by
          rw [hpe]
          exact encodeTerm_fresh ho
        exact this hv.2.2.1
      | some eo =>
        have hoe : encodeTerm (encodeNamedNode (encodeSubject d q.subject).2 q.predicate).2 q.object = (eo, d) := by
          rw [hpe]
          exact encodeTerm_of_lookup ho
        cases hg : encodeGraphNameLookup d q.graphName with
        | none =>
          intro hv
          have : ¬ (encodeGraphName (encodeTerm (encodeNamedNode (encodeSubject d q.subject).2 q.predicate).2 q.object).2 q.graphName).1.validIn d := by
            rw [hoe]
            exact encodeGraphName_fresh hg
          exact this hv.2.2.2
        | some eg =>
          rw [hs, hp, ho, hg] at h
          exact absurd h (by simp)

end Oxigraph

namespace Oxigraph

/-- Modelled from the spec: `insert(quad)` encodes the quad (interning
strings) and atomically adds it to all six indexes; adding an already
present quad is a no-op. -/
def MemoryStore.insert (S : MemoryStore) (q : Quad) : MemoryStore :=
  MemoryStore.insertEncoded
    { S with dict := (encodeQuad S.dict q).2 } (encodeQuad S.dict q).1

/-- Modelled from the spec: `contains(quad)` is a point lookup on the
SPOG index.  The store is reached through a shared reference, so the
quad is encoded read-only; an unknown string means the quad cannot be
present. -/
def MemoryStore.contains (S : MemoryStore) (q : Quad) : Bool :=
  match encodeQuadLookup S.dict q with
  | some eq => decide (eq ∈ S.spog)
  | none => false

/-- Modelled from the spec: `remove(quad)` encodes the known positions
read-only and deletes the matched quad from all six indexes. -/
def MemoryStore.remove (S : MemoryStore) (q : Quad) : MemoryStore :=
  match encodeQuadLookup S.dict q with
  | some eq => S.removeEncoded eq
  | none => S

/-- Operation `len()`: cardinality of one index. -/
def MemoryStore.len (S : MemoryStore) : Nat := S.spog.length

/-- Dictionary well-formedness: every stored quad references only
resolvable dictionary ids.  This holds for every store reachable through
the public operations. -/
def MemoryStore.DictWF (S : MemoryStore) : Prop :=
  ∀ q ∈ S.spog, q.validIn S.dict

/-- A shared example quad for concrete witnesses. -/
def sampleQuad : Quad :=
  ⟨.named ⟨"http://ex/s"⟩, ⟨"http://ex/p"⟩, .named ⟨"http://ex/o"⟩, .defaultGraph⟩

/-- C1: after `S.insert(q)`, `S.contains(q)` is true; `S.len()` is
unchanged by the insert when `contains(q)` was already true and
increased by exactly one otherwise (inserting a duplicate quad is a
no-op). -/
theorem C1_insert_contains_len (S : MemoryStore) (q : Quad) (hwf : S.DictWF) :
    (S.insert q).contains q = true ∧
    (S.contains q = true → (S.insert q).len = S.len) ∧
    (S.contains q = false → (S.insert q).len = S.len + 1) := by
  have hlk : encodeQuadLookup (encodeQuad S.dict q).2 q = some (encodeQuad S.dict q).1 :=
    encodeQuad_lookup S.dict q
  refine ⟨?_, ?_, ?_⟩
  · simp only [MemoryStore.insert, MemoryStore.contains, MemoryStore.insertEncoded]
    rw [hlk]
    simp [idxInsert_mem_self]
  · intro hc
    unfold MemoryStore.contains at hc
    cases hl : encodeQuadLookup S.dict q with
    | none => rw [hl] at hc; simp at hc
    | some eq0 =>
      rw [hl] at hc
      simp only [decide_eq_true_eq] at hc
      have he : encodeQuad S.dict q = (eq0, S.dict) := encodeQuad_of_lookup hl
      simp only [MemoryStore.insert, MemoryStore.len, MemoryStore.insertEncoded, he]
      simp [idxInsert_of_mem spogKey hc]
  · intro hc
    unfold MemoryStore.contains at hc
    cases hl : encodeQuadLookup S.dict q with
    | some eq0 =>
      rw [hl] at hc
      simp only [decide_eq_false_iff_not] at hc
      have he : encodeQuad S.dict q = (eq0, S.dict) := encodeQuad_of_lookup hl
      simp only [MemoryStore.insert, MemoryStore.len, MemoryStore.insertEncoded, he]
      simp [idxInsert_length_of_not_mem spogKey hc, MemoryStore.len]
    | none =>
      have hfresh := encodeQuad_fresh hl
      have hnot : (encodeQuad S.dict q).1 ∉ S.spog := fun hmem => hfresh (hwf _ hmem)
      simp only [MemoryStore.insert, MemoryStore.len, MemoryStore.insertEncoded]
      simp [idxInsert_length_of_not_mem spogKey hnot, MemoryStore.len]

/-- Witness for C1: inserting a concrete quad into the empty store. -/
theorem C1_insert_contains_len_witness :
    MemoryStore.empty.contains sampleQuad = false ∧
    (MemoryStore.empty.insert sampleQuad).contains sampleQuad = true ∧
    (MemoryStore.empty.insert sampleQuad).len = MemoryStore.empty.len + 1 := by
  have hwf : MemoryStore.empty.DictWF := by
    intro q hq
    simp [MemoryStore.empty] at hq
  have h := C1_insert_contains_len MemoryStore.empty sampleQuad hwf
  exact ⟨by decide, h.1, h.2.2 (by decide)⟩

end Oxigraph

namespace Oxigraph

/-! ## Index consistency (spec section 4.4) -/

/-- All six indexes hold the same multiset of encoded quads (each of the
other five is a permutation of SPOG). -/
def MemoryStore.Consistent (S : MemoryStore) : Prop :=
  S.posg.Perm S.spog ∧ S.ospg.Perm S.spog ∧ S.gspo.Perm S.spog ∧
    S.gpos.Perm S.spog ∧ S.gosp.Perm S.spog

theorem consistent_insertEncoded {S : MemoryStore} (h : S.Consistent)
    (q : EncodedQuad) : (S.insertEncoded q).Consistent := by
  obtain ⟨h1, h2, h3, h4, h5⟩ := h
  by_cases hm : q ∈ S.spog
  · have m1 : q ∈ S.posg := h1.mem_iff.mpr hm
    have m2 : q ∈ S.ospg := h2.mem_iff.mpr hm
    have m3 : q ∈ S.gspo := h3.mem_iff.mpr hm
    have m4 : q ∈ S.gpos := h4.mem_iff.mpr hm
    have m5 : q ∈ S.gosp := h5.mem_iff.mpr hm
    simp only [MemoryStore.insertEncoded, MemoryStore.Consistent,
      idxInsert_of_mem _ hm, idxInsert_of_mem _ m1, idxInsert_of_mem _ m2,
      idxInsert_of_mem _ m3, idxInsert_of_mem _ m4, idxInsert_of_mem _ m5]
    exact ⟨h1, h2, h3, h4, h5⟩
  · have m1 : q ∉ S.posg := fun c => hm (h1.mem_iff.mp c)
    have m2 : q ∉ S.ospg := fun c => hm (h2.mem_iff.mp c)
    have m3 : q ∉ S.gspo := fun c => hm (h3.mem_iff.mp c)
    have m4 : q ∉ S.gpos := fun c => hm (h4.mem_iff.mp c)
    have m5 : q ∉ S.gosp := fun c => hm (h5.mem_iff.mp c)
    have p0 : (idxInsert spogKey q S.spog).Perm (q :: S.spog) := by
      simp only [idxInsert, hm, if_false]
      exact List.perm_orderedInsert _ q S.spog
    have p1 : (idxInsert posgKey q S.posg).Perm (q :: S.posg) := by
      simp only [idxInsert, m1, if_false]
      exact List.perm_orderedInsert _ q S.posg
    have p2 : (idxInsert ospgKey q S.ospg).Perm (q :: S.ospg) := by
      simp only [idxInsert, m2, if_false]
      exact List.perm_orderedInsert _ q S.ospg
    have p3 : (idxInsert gspoKey q S.gspo).Perm (q :: S.gspo) := by
      simp only [idxInsert, m3, if_false]
      exact List.perm_orderedInsert _ q S.gspo
    have p4 : (idxInsert gposKey q S.gpos).Perm (q :: S.gpos) := by
      simp only [idxInsert, m4, if_false]
      exact List.perm_orderedInsert _ q S.gpos
    have p5 : (idxInsert gospKey q S.gosp).Perm (q :: S.gosp) := by
      simp only [idxInsert, m5, if_false]
      exact List.perm_orderedInsert _ q S.gosp
    exact ⟨p1.trans ((h1.cons q).trans p0.symm),
      p2.trans ((h2.cons q).trans p0.symm),
      p3.trans ((h3.cons q).trans p0.symm),
      p4.trans ((h4.cons q).trans p0.symm),
      p5.trans ((h5.cons q).trans p0.symm)⟩

theorem consistent_removeEncoded {S : MemoryStore} (h : S.Consistent)
    (q : EncodedQuad) : (S.removeEncoded q).Consistent := by
  obtain ⟨h1, h2, h3, h4, h5⟩ := h
  exact ⟨h1.erase q, h2.erase q, h3.erase q, h4.erase q, h5.erase q⟩

theorem consistent_insert {S : MemoryStore} (h : S.Consistent) (q : Quad) :
    (S.insert q).Consistent :=
  consistent_insertEncoded h (encodeQuad S.dict q).1

theorem consistent_remove {S : MemoryStore} (h : S.Consistent) (q : Quad) :
    (S.remove q).Consistent := by
  unfold MemoryStore.remove
  cases hl : encodeQuadLookup S.dict q with
  | some eq => exact consistent_removeEncoded h eq
  | none => exact h

/-- A sequence of public write operations (inserts and removes). -/
inductive StoreOp where
  | ins (q : Quad)
  | del (q : Quad)
deriving DecidableEq, Repr

def applyOp (S : MemoryStore) : StoreOp → MemoryStore
  | .ins q => S.insert q
  | .del q => S.remove q

def applyOps (S : MemoryStore) : List StoreOp → MemoryStore
  | [] => S
  | op :: rest => applyOps (applyOp S op) rest

theorem consistent_applyOps {S : MemoryStore} (h : S.Consistent)
    (ops : List StoreOp) : (applyOps S ops).Consistent := by
  induction ops generalizing S with
  | nil => exact h
  | cons op rest ih =>
    cases op with
    | ins q => exact ih (consistent_insert h q)
    | del q => exact ih (consistent_remove h q)

/-- C4: after any sequence of completed insert and remove operations,
all six indexes (SPOG, POSG, OSPG, GSPO, GPOS, GOSP) contain the same
multiset of encoded quads. -/
theorem C4_index_consistency (ops : List StoreOp) :
    ((applyOps MemoryStore.empty ops).posg).Perm (applyOps MemoryStore.empty ops).spog ∧
    ((applyOps MemoryStore.empty ops).ospg).Perm (applyOps MemoryStore.empty ops).spog ∧
    ((applyOps MemoryStore.empty ops).gspo).Perm (applyOps MemoryStore.empty ops).spog ∧
    ((applyOps MemoryStore.empty ops).gpos).Perm (applyOps MemoryStore.empty ops).spog ∧
    ((applyOps MemoryStore.empty ops).gosp).Perm (applyOps MemoryStore.empty ops).spog :=
  consistent_applyOps
    ⟨List.Perm.refl [], List.Perm.refl [], List.Perm.refl [],
     List.Perm.refl [], List.Perm.refl []⟩ ops

end Oxigraph

namespace Oxigraph

/-! ## Pattern scans (spec section 4.4; the trait
`ReadableEncodedStore::encoded_quads_for_pattern` is declared in
`src/lib/src/store/mod.rs`, its memory implementation is modelled from
the spec) -/

/-- Modelled from the spec: `encoded_quads_for_pattern` selects the
index whose leading key columns cover the bound positions (ties broken
in the fixed order SPOG, POSG, OSPG, GSPO, GPOS, GOSP) and prefix-scans
it.  The prefix scan over a sorted set is, extensionally, the sublist of
entries whose leading key columns equal the bound values, written here
as a filter. -/
def MemoryStore.encodedQuadsForPattern (S : MemoryStore)
    (s p o g : Option EncodedTerm) : List EncodedQuad :=
  match s, p, o, g with
  | none, none, none, none => S.spog
  | some sv, none, none, none =>
    S.spog.filter (fun q => q.subject == sv)
  | some sv, some pv, none, none =>
    S.spog.filter (fun q => q.subject == sv && q.predicate == pv)
  | some sv, some pv, some ov, none =>
    S.spog.filter (fun q => q.subject == sv && q.predicate == pv && q.object == ov)
  | none, some pv, none, none =>
    S.posg.filter (fun q => q.predicate == pv)
  | none, some pv, some ov, none =>
    S.posg.filter (fun q => q.predicate == pv && q.object == ov)
  | none, none, some ov, none =>
    S.ospg.filter (fun q => q.object == ov)
  | some sv, none, some ov, none =>
    S.ospg.filter (fun q => q.object == ov && q.subject == sv)
  | none, none, none, some gv =>
    S.gspo.filter (fun q => q.graphName == gv)
  | some sv, none, none, some gv =>
    S.gspo.filter (fun q => q.graphName == gv && q.subject == sv)
  | some sv, some pv, none, some gv =>
    S.gspo.filter (fun q => q.graphName == gv && q.subject == sv && q.predicate == pv)
  | some sv, some pv, some ov, some gv =>
    S.gspo.filter
      (fun q => q.graphName == gv && q.subject == sv && q.predicate == pv && q.object == ov)
  | none, some pv, none, some gv =>
    S.gpos.filter (fun q => q.graphName == gv && q.predicate == pv)
  | none, some pv, some ov, some gv =>
    S.gpos.filter (fun q => q.graphName == gv && q.predicate == pv && q.object == ov)
  | none, none, some ov, some gv =>
    S.gosp.filter (fun q => q.graphName == gv && q.object == ov)
  | some sv, none, some ov, some gv =>
    S.gosp.filter (fun q => q.graphName == gv && q.object == ov && q.subject == sv)

/-- A term agrees with a bound position (an unbound position matches
anything). -/
def optMatches (x : Option EncodedTerm) (t : EncodedTerm) : Prop :=
  ∀ v, x = some v → t = v

@[simp]
theorem optMatches_none (t : EncodedTerm) : optMatches none t := by
  intro v h
  exact absurd h (by simp)

@[simp]
theorem optMatches_some (v t : EncodedTerm) : optMatches (some v) t ↔ t = v := by
  constructor
  · intro h
    exact h v rfl
  · intro h w hw
    rw [Option.some_inj] at hw
    rw [h, hw]

/-- C2: for every consistent store and every combination of bound and
unbound positions, the pattern scan yields exactly the quads of the
store agreeing with every bound position. -/
theorem C2_pattern_completeness (S : MemoryStore) (hc : S.Consistent)
    (s p o g : Option EncodedTerm) (q : EncodedQuad) :
    q ∈ S.encodedQuadsForPattern s p o g ↔
      q ∈ S.spog ∧ optMatches s q.subject ∧ optMatches p q.predicate ∧
        optMatches o q.object ∧ optMatches g q.graphName := by
  obtain ⟨h1, h2, h3, h4, h5⟩ := hc
  rcases s with _ | sv <;> rcases p with _ | pv <;> rcases o with _ | ov <;>
    rcases g with _ | gv <;>
    simp only [MemoryStore.encodedQuadsForPattern, List.mem_filter,
      Bool.and_eq_true, beq_iff_eq, optMatches_none, optMatches_some,
      h1.mem_iff, h2.mem_iff, h3.mem_iff, h4.mem_iff, h5.mem_iff,
      true_and, and_true] <;>
    tauto

/-- Witness for C2: in a one-quad store built by the public operations,
the predicate-bound pattern returns the quad. -/
theorem C2_pattern_completeness_witness :
    (⟨.namedNode 1, .namedNode 2, .namedNode 3, .defaultGraph⟩ : EncodedQuad) ∈
      (applyOps MemoryStore.empty [.ins sampleQuad]).encodedQuadsForPattern
        none (some (.namedNode 2)) none none :=
  (C2_pattern_completeness (applyOps MemoryStore.empty [.ins sampleQuad])
      (consistent_applyOps
        ⟨List.Perm.refl [], List.Perm.refl [], List.Perm.refl [],
         List.Perm.refl [], List.Perm.refl []⟩ _)
      none (some (.namedNode 2)) none none
      ⟨.namedNode 1, .namedNode 2, .namedNode 3, .defaultGraph⟩).mpr
    ⟨by decide, optMatches_none _, by simp, optMatches_none _, optMatches_none _⟩

end Oxigraph

namespace Oxigraph

/-! ## Loader adapter (embeds `load_graph`, `load_dataset`,
`load_from_triple_parser` and `load_from_quad_parser` from
`src/lib/src/store/mod.rs`; the encoding callbacks
`encode_rio_triple_in_graph` / `encode_rio_quad` live in the missing
`numeric_encoder.rs` and are modelled from the spec, section 4.5) -/

/-- Parser-side subject (rio callback data): blank nodes carry the
document-local label. -/
inductive PSubject where
  | named (iri : String)
  | blankLabel (label : String)
deriving DecidableEq, Repr

/-- Parser-side term in object position. -/
inductive PTerm where
  | named (iri : String)
  | blankLabel (label : String)
  | lit (l : Literal)
deriving DecidableEq, Repr

/-- A parsed triple event. -/
structure PTriple where
  subject : PSubject
  predicate : String
  object : PTerm
deriving DecidableEq, Repr

/-- A parsed quad event (`graphName = none` is the default graph). -/
structure PQuad where
  subject : PSubject
  predicate : String
  object : PTerm
  graphName : Option PSubject
deriving DecidableEq, Repr

/-- The per-load blank-node map (`bnode_map` in the source). -/
abbrev BnodeMap := List (String × Nat)

def bmLookup : BnodeMap → String → Option Nat
  | [], _ => none
  | (l, i) :: rest, s => if l = s then some i else bmLookup rest s

/-- Modelled from the spec: resolve a parser blank-node label through
the per-load map, allocating a fresh store-side id from the writer-owned
monotonic counter on first sight. -/
def resolveBlank (S : MemoryStore) (m : BnodeMap) (label : String) :
    Nat × MemoryStore × BnodeMap :=
  match bmLookup m label with
  | some id => (id, S, m)
  | none =>
    (S.bnodeCounter, { S with bnodeCounter := S.bnodeCounter + 1 },
     (label, S.bnodeCounter) :: m)

/-- Intern a string through the store's dictionary. -/
def internStr (S : MemoryStore) (s : String) : Nat × MemoryStore :=
  ((S.dict.intern s).1, { S with dict := (S.dict.intern s).2 })

def encodePSubject (S : MemoryStore) (m : BnodeMap) :
    PSubject → EncodedTerm × MemoryStore × BnodeMap
  | .named iri =>
    (.namedNode (internStr S iri).1, (internStr S iri).2, m)
  | .blankLabel l =>
    (.blankNode (resolveBlank S m l).1, (resolveBlank S m l).2.1,
     (resolveBlank S m l).2.2)

def encodePTerm (S : MemoryStore) (m : BnodeMap) :
    PTerm → EncodedTerm × MemoryStore × BnodeMap
  | .named iri =>
    (.namedNode (internStr S iri).1, (internStr S iri).2, m)
  | .blankLabel l =>
    (.blankNode (resolveBlank S m l).1, (resolveBlank S m l).2.1,
     (resolveBlank S m l).2.2)
  | .lit l =>
    ((encodeLiteral S.dict l).1, { S with dict := (encodeLiteral S.dict l).2 }, m)

def encodePGraph (S : MemoryStore) (m : BnodeMap) :
    Option PSubject → EncodedTerm × MemoryStore × BnodeMap
  | none => (.defaultGraph, S, m)
  | some s => encodePSubject S m s

/-- Modelled from the spec: `encode_rio_triple_in_graph` — the triple's
terms are encoded through the dictionary and the per-load blank-node
map, and the caller-encoded target graph term `g` becomes the quad's
graph position. -/
def stepTriple (g : EncodedTerm) (S : MemoryStore) (m : BnodeMap) (t : PTriple) :
    EncodedQuad × MemoryStore × BnodeMap :=
  match encodePSubject S m t.subject with
  | (es, S1, m1) =>
    match internStr S1 t.predicate with
    | (pi, S2) =>
      match encodePTerm S2 m1 t.object with
      | (eo, S3, m3) => (⟨es, .namedNode pi, eo, g⟩, S3, m3)

/-- Modelled from the spec: `encode_rio_quad` — as `stepTriple`, but the
graph position comes from the parsed quad itself. -/
def stepQuad (S : MemoryStore) (m : BnodeMap) (q : PQuad) :
    EncodedQuad × MemoryStore × BnodeMap :=
  match encodePSubject S m q.subject with
  | (es, S1, m1) =>
    match internStr S1 q.predicate with
    | (pi, S2) =>
      match encodePTerm S2 m1 q.object with
      | (eo, S3, m3) =>
        match encodePGraph S3 m3 q.graphName with
        | (eg, S4, m4) => (⟨es, .namedNode pi, eo, eg⟩, S4, m4)

/-- The parse-and-insert loop of `load_from_triple_parser`: each parsed
triple is encoded in the target graph and inserted immediately.  The
third component records the encoded quads in event order (an observer
used by the theorems; the store component is the loader's result). -/
def loadTriples (g : EncodedTerm) :
    List PTriple → MemoryStore → BnodeMap →
      MemoryStore × BnodeMap × List EncodedQuad
  | [], S, m => (S, m, [])
  | t :: rest, S, m =>
    match stepTriple g S m t with
    | (eq, S1, m1) =>
      match loadTriples g rest (S1.insertEncoded eq) m1 with
      | (S2, m2, tr) => (S2, m2, eq :: tr)

/-- The parse-and-insert loop of `load_from_quad_parser`. -/
def loadQuads :
    List PQuad → MemoryStore → BnodeMap →
      MemoryStore × BnodeMap × List EncodedQuad
  | [], S, m => (S, m, [])
  | q :: rest, S, m =>
    match stepQuad S m q with
    | (eq, S1, m1) =>
      match loadQuads rest (S1.insertEncoded eq) m1 with
      | (S2, m2, tr) => (S2, m2, eq :: tr)

/-- Embeds `load_from_triple_parser`: fresh blank-node map, the target
graph name encoded once up front, then the parse-and-insert loop. -/
def loadGraphDoc (S : MemoryStore) (doc : List PTriple) (g : GraphName) :
    MemoryStore :=
  (loadTriples (encodeGraphName S.dict g).1 doc
    { S with dict := (encodeGraphName S.dict g).2 } []).1

/-- Embeds `load_from_quad_parser`: fresh blank-node map, then the
parse-and-insert loop honoring each parsed quad's graph. -/
def loadDatasetDoc (S : MemoryStore) (doc : List PQuad) : MemoryStore :=
  (loadQuads doc S []).1

/-- Embeds `parse_all` over a fallible triple-event stream: events are
handled in order, the first parser error stops the load and is returned;
quads inserted for earlier events stay in the store (the store is
mutated in place by `insert_encoded`). -/
def parseAllTriples (g : EncodedTerm) :
    List (Except String PTriple) → MemoryStore → BnodeMap →
      MemoryStore × Option String
  | [], S, _ => (S, none)
  | .error e :: _, S, _ => (S, some e)
  | .ok t :: rest, S, m =>
    match stepTriple g S m t with
    | (eq, S1, m1) => parseAllTriples g rest (S1.insertEncoded eq) m1

/-- Embeds `parse_all` over a fallible quad-event stream. -/
def parseAllQuads :
    List (Except String PQuad) → MemoryStore → BnodeMap →
      MemoryStore × Option String
  | [], S, _ => (S, none)
  | .error e :: _, S, _ => (S, some e)
  | .ok q :: rest, S, m =>
    match stepQuad S m q with
    | (eq, S1, m1) => parseAllQuads rest (S1.insertEncoded eq) m1

/-! ## Syntax identification and the JS `load` entry point (embeds
`JsMemoryStore::load` from `src/js/src/store.rs`; the MIME table of
`rio.rs` is modelled from the spec, section 6) -/

inductive GraphSyntax where
  | nTriples
  | turtle
  | rdfXml
deriving DecidableEq, Repr

inductive DatasetSyntax where
  | nQuads
  | triG
deriving DecidableEq, Repr

/-- Modelled from the spec: MIME type to graph syntax. -/
def GraphSyntax.from_mime_type (m : String) : Option GraphSyntax :=
  if m = "application/n-triples" then some .nTriples
  else if m = "text/turtle" then some .turtle
  else if m = "application/x-turtle" then some .turtle
  else if m = "application/rdf+xml" then some .rdfXml
  else none

/-- Modelled from the spec: MIME type to dataset syntax. -/
def DatasetSyntax.from_mime_type (m : String) : Option DatasetSyntax :=
  if m = "application/n-quads" then some .nQuads
  else if m = "application/trig" then some .triG
  else none

inductive JsLoadError where
  | graphNameNotApplicable
  | unsupportedSyntax
deriving DecidableEq, Repr

/-- Embeds the control flow of `JsMemoryStore::load`: a graph-syntax
MIME type loads through `load_graph` with the target graph defaulting to
the default graph; a dataset-syntax MIME type first rejects any supplied
target graph (before any parsing or insertion); anything else is an
unsupported syntax.  The document is taken pre-parsed (the rio parsers
are external); base-IRI handling is orthogonal and omitted. -/
def jsLoad (S : MemoryStore) (mimeType : String) (toGraphName : Option GraphName)
    (docT : List PTriple) (docQ : List PQuad) : Except JsLoadError MemoryStore :=
  match GraphSyntax.from_mime_type mimeType with
  | some _ => .ok (loadGraphDoc S docT (toGraphName.getD .defaultGraph))
  | none =>
    match DatasetSyntax.from_mime_type mimeType with
    | some _ =>
      match toGraphName with
      | some _ => .error .graphNameNotApplicable
      | none => .ok (loadDatasetDoc S docQ)
    | none => .error .unsupportedSyntax

end Oxigraph

namespace Oxigraph

/-! ### Step-level properties of the loader -/

theorem bmLookup_assigned (S : MemoryStore) (m : BnodeMap) (l : String) :
    bmLookup (resolveBlank S m l).2.2 l = some (resolveBlank S m l).1 := by
  unfold resolveBlank
  cases h : bmLookup m l with
  | some id => simpa using h
  | none => simp [bmLookup]

theorem resolveBlank_bm_mono {m : BnodeMap} {s : String} {i : Nat}
    (S : MemoryStore) (l : String) (h : bmLookup m s = some i) :
    bmLookup (resolveBlank S m l).2.2 s = some i := by
  unfold resolveBlank
  cases hl : bmLookup m l with
  | some id => simpa using h
  | none =>
    by_cases he : l = s
    · rw [he] at hl
      rw [hl] at h
      exact absurd h (by simp)
    · simpa [bmLookup, he] using h

theorem resolveBlank_dict (S : MemoryStore) (m : BnodeMap) (l : String) :
    ((resolveBlank S m l).2.1).dict = S.dict := by
  unfold resolveBlank
  cases bmLookup m l <;> rfl

theorem resolveBlank_counter_le (S : MemoryStore) (m : BnodeMap) (l : String) :
    S.bnodeCounter ≤ ((resolveBlank S m l).2.1).bnodeCounter := by
  unfold resolveBlank
  cases bmLookup m l with
  | some id => exact Nat.le_refl _
  | none => exact Nat.le_succ _

theorem resolveBlank_range (S : MemoryStore) (m : BnodeMap) (l : String) :
    ∀ p ∈ (resolveBlank S m l).2.2,
      p ∈ m ∨ (S.bnodeCounter ≤ p.2 ∧ p.2 < ((resolveBlank S m l).2.1).bnodeCounter) := by
  unfold resolveBlank
  cases bmLookup m l with
  | some id => intro p hp; exact Or.inl hp
  | none =>
    intro p hp
    simp only [List.mem_cons] at hp
    cases hp with
    | inl h => exact Or.inr ⟨by rw [h], by rw [h]; exact Nat.lt_succ_self _⟩
    | inr h => exact Or.inl h

theorem resolveBlank_indexes (S : MemoryStore) (m : BnodeMap) (l : String) :
    ((resolveBlank S m l).2.1).spog = S.spog ∧
    ((resolveBlank S m l).2.1).posg = S.posg ∧
    ((resolveBlank S m l).2.1).ospg = S.ospg ∧
    ((resolveBlank S m l).2.1).gspo = S.gspo ∧
    ((resolveBlank S m l).2.1).gpos = S.gpos ∧
    ((resolveBlank S m l).2.1).gosp = S.gosp := by
  unfold resolveBlank
  cases bmLookup m l <;> exact ⟨rfl, rfl, rfl, rfl, rfl, rfl⟩

theorem encodePSubject_dict_ext (S : MemoryStore) (m : BnodeMap) (ps : PSubject) :
    Dict.Ext S.dict ((encodePSubject S m ps).2.1).dict := by
  cases ps with
  | named iri => exact Dict.intern_ext S.dict iri
  | blankLabel l =>
    rw [show (encodePSubject S m (.blankLabel l)).2.1 = (resolveBlank S m l).2.1 from rfl,
      resolveBlank_dict]
    exact Dict.Ext.refl S.dict

theorem encodePSubject_counter_le (S : MemoryStore) (m : BnodeMap) (ps : PSubject) :
    S.bnodeCounter ≤ ((encodePSubject S m ps).2.1).bnodeCounter := by
  cases ps with
  | named iri => exact Nat.le_refl _
  | blankLabel l => exact resolveBlank_counter_le S m l

theorem encodePSubject_bm_mono {m : BnodeMap} {s : String} {i : Nat}
    (S : MemoryStore) (ps : PSubject) (h : bmLookup m s = some i) :
    bmLookup ((encodePSubject S m ps).2.2) s = some i := by
  cases ps with
  | named iri => exact h
  | blankLabel l => exact resolveBlank_bm_mono S l h

theorem encodePSubject_range (S : MemoryStore) (m : BnodeMap) (ps : PSubject) :
    ∀ p ∈ (encodePSubject S m ps).2.2,
      p ∈ m ∨ (S.bnodeCounter ≤ p.2 ∧
        p.2 < ((encodePSubject S m ps).2.1).bnodeCounter) := by
  cases ps with
  | named iri => intro p hp; exact Or.inl hp
  | blankLabel l => exact resolveBlank_range S m l

theorem encodePSubject_blank (S : MemoryStore) (m : BnodeMap) (l : String) :
    ∃ id, (encodePSubject S m (.blankLabel l)).1 = .blankNode id ∧
      bmLookup ((encodePSubject S m (.blankLabel l)).2.2) l = some id :=
  ⟨(resolveBlank S m l).1, rfl, bmLookup_assigned S m l⟩

theorem encodePTerm_dict_ext (S : MemoryStore) (m : BnodeMap) (pt : PTerm) :
    Dict.Ext S.dict ((encodePTerm S m pt).2.1).dict := by
  cases pt with
  | named iri => exact Dict.intern_ext S.dict iri
  | blankLabel l =>
    rw [show (encodePTerm S m (.blankLabel l)).2.1 = (resolveBlank S m l).2.1 from rfl,
      resolveBlank_dict]
    exact Dict.Ext.refl S.dict
  | lit l => exact encodeLiteral_ext S.dict l

theorem encodePTerm_counter_le (S : MemoryStore) (m : BnodeMap) (pt : PTerm) :
    S.bnodeCounter ≤ ((encodePTerm S m pt).2.1).bnodeCounter := by
  cases pt with
  | named iri => exact Nat.le_refl _
  | blankLabel l => exact resolveBlank_counter_le S m l
  | lit l => exact Nat.le_refl _

theorem encodePTerm_bm_mono {m : BnodeMap} {s : String} {i : Nat}
    (S : MemoryStore) (pt : PTerm) (h : bmLookup m s = some i) :
    bmLookup ((encodePTerm S m pt).2.2) s = some i := by
  cases pt with
  | named iri => exact h
  | blankLabel l => exact resolveBlank_bm_mono S l h
  | lit l => exact h

theorem encodePTerm_range (S : MemoryStore) (m : BnodeMap) (pt : PTerm) :
    ∀ p ∈ (encodePTerm S m pt).2.2,
      p ∈ m ∨ (S.bnodeCounter ≤ p.2 ∧
        p.2 < ((encodePTerm S m pt).2.1).bnodeCounter) := by
  cases pt with
  | named iri => intro p hp; exact Or.inl hp
  | blankLabel l => exact resolveBlank_range S m l
  | lit l => intro p hp; exact Or.inl hp

theorem encodePTerm_blank (S : MemoryStore) (m : BnodeMap) (l : String) :
    ∃ id, (encodePTerm S m (.blankLabel l)).1 = .blankNode id ∧
      bmLookup ((encodePTerm S m (.blankLabel l)).2.2) l = some id :=
  ⟨(resolveBlank S m l).1, rfl, bmLookup_assigned S m l⟩

theorem encodePGraph_dict_ext (S : MemoryStore) (m : BnodeMap) (pg : Option PSubject) :
    Dict.Ext S.dict ((encodePGraph S m pg).2.1).dict := by
  cases pg with
  | none => exact Dict.Ext.refl S.dict
  | some ps => exact encodePSubject_dict_ext S m ps

theorem encodePGraph_counter_le (S : MemoryStore) (m : BnodeMap) (pg : Option PSubject) :
    S.bnodeCounter ≤ ((encodePGraph S m pg).2.1).bnodeCounter := by
  cases pg with
  | none => exact Nat.le_refl _
  | some ps => exact encodePSubject_counter_le S m ps

theorem encodePGraph_bm_mono {m : BnodeMap} {s : String} {i : Nat}
    (S : MemoryStore) (pg : Option PSubject) (h : bmLookup m s = some i) :
    bmLookup ((encodePGraph S m pg).2.2) s = some i := by
  cases pg with
  | none => exact h
  | some ps => exact encodePSubject_bm_mono S ps h

theorem encodePGraph_range (S : MemoryStore) (m : BnodeMap) (pg : Option PSubject) :
    ∀ p ∈ (encodePGraph S m pg).2.2,
      p ∈ m ∨ (S.bnodeCounter ≤ p.2 ∧
        p.2 < ((encodePGraph S m pg).2.1).bnodeCounter) := by
  cases pg with
  | none => intro p hp; exact Or.inl hp
  | some ps => exact encodePSubject_range S m ps

end Oxigraph

namespace Oxigraph

theorem stepTriple_graph (g : EncodedTerm) (S : MemoryStore) (m : BnodeMap)
    (t : PTriple) : (stepTriple g S m t).1.graphName = g := rfl

theorem stepTriple_dict_ext (g : EncodedTerm) (S : MemoryStore) (m : BnodeMap)
    (t : PTriple) : Dict.Ext S.dict ((stepTriple g S m t).2.1).dict :=
  ((encodePSubject_dict_ext S m t.subject).trans
    (Dict.intern_ext _ t.predicate)).trans (encodePTerm_dict_ext _ _ t.object)

theorem stepTriple_counter_le (g : EncodedTerm) (S : MemoryStore) (m : BnodeMap)
    (t : PTriple) : S.bnodeCounter ≤ ((stepTriple g S m t).2.1).bnodeCounter := by
  have h1 := encodePSubject_counter_le S m t.subject
  have h2 := encodePTerm_counter_le
    (internStr (encodePSubject S m t.subject).2.1 t.predicate).2
    (encodePSubject S m t.subject).2.2 t.object
  exact le_trans h1 h2

theorem stepTriple_bm_mono {m : BnodeMap} {s : String} {i : Nat} (g : EncodedTerm)
    (S : MemoryStore) (t : PTriple) (h : bmLookup m s = some i) :
    bmLookup ((stepTriple g S m t).2.2) s = some i :=
  encodePTerm_bm_mono (internStr (encodePSubject S m t.subject).2.1 t.predicate).2
    t.object (encodePSubject_bm_mono S t.subject h)

theorem stepTriple_range (g : EncodedTerm) (S : MemoryStore) (m : BnodeMap)
    (t : PTriple) :
    ∀ p ∈ (stepTriple g S m t).2.2,
      p ∈ m ∨ (S.bnodeCounter ≤ p.2 ∧
        p.2 < ((stepTriple g S m t).2.1).bnodeCounter) := by
  intro p hp
  have hp' : p ∈ (encodePTerm (internStr (encodePSubject S m t.subject).2.1
      t.predicate).2 (encodePSubject S m t.subject).2.2 t.object).2.2 := hp
  have hc2 := encodePTerm_counter_le
    (internStr (encodePSubject S m t.subject).2.1 t.predicate).2
    (encodePSubject S m t.subject).2.2 t.object
  rcases encodePTerm_range (internStr (encodePSubject S m t.subject).2.1
      t.predicate).2 (encodePSubject S m t.subject).2.2 t.object p hp'
    with h | ⟨h1, h2⟩
  · rcases encodePSubject_range S m t.subject p h with h' | ⟨h1', h2'⟩
    · exact Or.inl h'
    · exact Or.inr ⟨h1', lt_of_lt_of_le h2' hc2⟩
  · exact Or.inr ⟨le_trans (encodePSubject_counter_le S m t.subject) h1, h2⟩

theorem stepTriple_subject_blank (g : EncodedTerm) (S : MemoryStore) (m : BnodeMap)
    (t : PTriple) (l : String) (h : t.subject = .blankLabel l) :
    ∃ id, (stepTriple g S m t).1.subject = .blankNode id ∧
      bmLookup ((stepTriple g S m t).2.2) l = some id := by
  obtain ⟨ts, tp, tob⟩ := t
  simp only at h
  subst h
  obtain ⟨id, he, hm⟩ := encodePSubject_blank S m l
  refine ⟨id, he, ?_⟩
  exact encodePTerm_bm_mono
    (internStr (encodePSubject S m (.blankLabel l)).2.1 tp).2 tob hm

theorem stepTriple_object_blank (g : EncodedTerm) (S : MemoryStore) (m : BnodeMap)
    (t : PTriple) (l : String) (h : t.object = .blankLabel l) :
    ∃ id, (stepTriple g S m t).1.object = .blankNode id ∧
      bmLookup ((stepTriple g S m t).2.2) l = some id := by
  obtain ⟨ts, tp, tob⟩ := t
  simp only at h
  subst h
  exact encodePTerm_blank (internStr (encodePSubject S m ts).2.1 tp).2
    (encodePSubject S m ts).2.2 l

theorem stepQuad_dict_ext (S : MemoryStore) (m : BnodeMap) (q : PQuad) :
    Dict.Ext S.dict ((stepQuad S m q).2.1).dict :=
  (((encodePSubject_dict_ext S m q.subject).trans
    (Dict.intern_ext _ q.predicate)).trans
    (encodePTerm_dict_ext (internStr (encodePSubject S m q.subject).2.1
      q.predicate).2 (encodePSubject S m q.subject).2.2 q.object)).trans
    (encodePGraph_dict_ext
      (encodePTerm (internStr (encodePSubject S m q.subject).2.1 q.predicate).2
        (encodePSubject S m q.subject).2.2 q.object).2.1
      (encodePTerm (internStr (encodePSubject S m q.subject).2.1 q.predicate).2
        (encodePSubject S m q.subject).2.2 q.object).2.2 q.graphName)

theorem stepQuad_counter_le (S : MemoryStore) (m : BnodeMap) (q : PQuad) :
    S.bnodeCounter ≤ ((stepQuad S m q).2.1).bnodeCounter := by
  have h1 := encodePSubject_counter_le S m q.subject
  have h2 := encodePTerm_counter_le
    (internStr (encodePSubject S m q.subject).2.1 q.predicate).2
    (encodePSubject S m q.subject).2.2 q.object
  have h3 := encodePGraph_counter_le
    (encodePTerm (internStr (encodePSubject S m q.subject).2.1 q.predicate).2
      (encodePSubject S m q.subject).2.2 q.object).2.1
    (encodePTerm (internStr (encodePSubject S m q.subject).2.1 q.predicate).2
      (encodePSubject S m q.subject).2.2 q.object).2.2 q.graphName
  exact le_trans (le_trans h1 h2) h3

theorem stepQuad_bm_mono {m : BnodeMap} {s : String} {i : Nat}
    (S : MemoryStore) (q : PQuad) (h : bmLookup m s = some i) :
    bmLookup ((stepQuad S m q).2.2) s = some i :=
  encodePGraph_bm_mono
    (encodePTerm (internStr (encodePSubject S m q.subject).2.1 q.predicate).2
      (encodePSubject S m q.subject).2.2 q.object).2.1 q.graphName
    (encodePTerm_bm_mono (internStr (encodePSubject S m q.subject).2.1
      q.predicate).2 q.object (encodePSubject_bm_mono S q.subject h))

theorem stepQuad_range (S : MemoryStore) (m : BnodeMap) (q : PQuad) :
    ∀ p ∈ (stepQuad S m q).2.2,
      p ∈ m ∨ (S.bnodeCounter ≤ p.2 ∧
        p.2 < ((stepQuad S m q).2.1).bnodeCounter) := by
  intro p hp
  have hp' : p ∈ (encodePGraph
      (encodePTerm (internStr (encodePSubject S m q.subject).2.1 q.predicate).2
        (encodePSubject S m q.subject).2.2 q.object).2.1
      (encodePTerm (internStr (encodePSubject S m q.subject).2.1 q.predicate).2
        (encodePSubject S m q.subject).2.2 q.object).2.2 q.graphName).2.2 := hp
  have hc2 := encodePTerm_counter_le
    (internStr (encodePSubject S m q.subject).2.1 q.predicate).2
    (encodePSubject S m q.subject).2.2 q.object
  have hc3 := encodePGraph_counter_le
    (encodePTerm (internStr (encodePSubject S m q.subject).2.1 q.predicate).2
      (encodePSubject S m q.subject).2.2 q.object).2.1
    (encodePTerm (internStr (encodePSubject S m q.subject).2.1 q.predicate).2
      (encodePSubject S m q.subject).2.2 q.object).2.2 q.graphName
  rcases encodePGraph_range
      (encodePTerm (internStr (encodePSubject S m q.subject).2.1 q.predicate).2
        (encodePSubject S m q.subject).2.2 q.object).2.1
      (encodePTerm (internStr (encodePSubject S m q.subject).2.1 q.predicate).2
        (encodePSubject S m q.subject).2.2 q.object).2.2 q.graphName p hp'
    with h | ⟨h1, h2⟩
  · rcases encodePTerm_range (internStr (encodePSubject S m q.subject).2.1
        q.predicate).2 (encodePSubject S m q.subject).2.2 q.object p h
      with h' | ⟨h1', h2'⟩
    · rcases encodePSubject_range S m q.subject p h' with h'' | ⟨h1'', h2''⟩
      · exact Or.inl h''
      · exact Or.inr ⟨h1'', lt_of_lt_of_le h2'' (le_trans hc2 hc3)⟩
    · exact Or.inr ⟨le_trans (encodePSubject_counter_le S m q.subject) h1',
        lt_of_lt_of_le h2' hc3⟩
  · exact Or.inr ⟨le_trans (le_trans (encodePSubject_counter_le S m q.subject)
      hc2) h1, h2⟩

/-- The graph position of an encoded quad honors the parsed quad's graph
name: the default graph stays default, a named graph resolves to its
IRI, a blank graph label becomes a blank-node id. -/
def GraphHonored : Option PSubject → EncodedTerm → Dict → Prop
  | none, eg, _ => eg = .defaultGraph
  | some (.named iri), eg, d => ∃ id, eg = .namedNode id ∧ d.resolve id = some iri
  | some (.blankLabel _), eg, _ => ∃ id, eg = .blankNode id

theorem GraphHonored.mono {pg : Option PSubject} {eg : EncodedTerm} {d d' : Dict}
    (hx : Dict.Ext d d') (h : GraphHonored pg eg d) : GraphHonored pg eg d' := by
  cases pg with
  | none => exact h
  | some ps =>
    cases ps with
    | named iri =>
      obtain ⟨id, he, hr⟩ := h
      exact ⟨id, he, Dict.resolve_ext hx hr⟩
    | blankLabel l => exact h

theorem stepQuad_graph_honored (S : MemoryStore) (m : BnodeMap) (q : PQuad) :
    GraphHonored q.graphName ((stepQuad S m q).1).graphName
      ((stepQuad S m q).2.1).dict := by
  obtain ⟨qs, qp, qo, qg⟩ := q
  cases qg with
  | none => exact rfl
  | some ps =>
    cases ps with
    | named iri =>
      refine ⟨((encodePTerm _ _ qo).2.1.dict.intern iri).1, rfl, ?_⟩
      exact Dict.resolve_intern _ iri
    | blankLabel l => exact ⟨_, rfl⟩

end Oxigraph

namespace Oxigraph

/-! ### Encoding steps leave the indexes untouched -/

theorem encodePSubject_spog (S : MemoryStore) (m : BnodeMap) (ps : PSubject) :
    ((encodePSubject S m ps).2.1).spog = S.spog := by
  cases ps with
  | named iri => rfl
  | blankLabel l => exact (resolveBlank_indexes S m l).1

theorem encodePTerm_spog (S : MemoryStore) (m : BnodeMap) (pt : PTerm) :
    ((encodePTerm S m pt).2.1).spog = S.spog := by
  cases pt with
  | named iri => rfl
  | blankLabel l => exact (resolveBlank_indexes S m l).1
  | lit l => rfl

theorem encodePGraph_spog (S : MemoryStore) (m : BnodeMap) (pg : Option PSubject) :
    ((encodePGraph S m pg).2.1).spog = S.spog := by
  cases pg with
  | none => rfl
  | some ps => exact encodePSubject_spog S m ps

theorem stepTriple_spog (g : EncodedTerm) (S : MemoryStore) (m : BnodeMap)
    (t : PTriple) : ((stepTriple g S m t).2.1).spog = S.spog := by
  have h3 : ((stepTriple g S m t).2.1).spog
      = ((internStr (encodePSubject S m t.subject).2.1 t.predicate).2).spog :=
    encodePTerm_spog (internStr (encodePSubject S m t.subject).2.1 t.predicate).2
      (encodePSubject S m t.subject).2.2 t.object
  rw [h3]
  exact encodePSubject_spog S m t.subject

theorem stepQuad_spog (S : MemoryStore) (m : BnodeMap) (q : PQuad) :
    ((stepQuad S m q).2.1).spog = S.spog := by
  have h4 : ((stepQuad S m q).2.1).spog
      = ((encodePTerm (internStr (encodePSubject S m q.subject).2.1 q.predicate).2
        (encodePSubject S m q.subject).2.2 q.object).2.1).spog :=
    encodePGraph_spog
      (encodePTerm (internStr (encodePSubject S m q.subject).2.1 q.predicate).2
        (encodePSubject S m q.subject).2.2 q.object).2.1
      (encodePTerm (internStr (encodePSubject S m q.subject).2.1 q.predicate).2
        (encodePSubject S m q.subject).2.2 q.object).2.2 q.graphName
  rw [h4]
  have h3 : ((encodePTerm (internStr (encodePSubject S m q.subject).2.1
      q.predicate).2 (encodePSubject S m q.subject).2.2 q.object).2.1).spog
      = ((internStr (encodePSubject S m q.subject).2.1 q.predicate).2).spog :=
    encodePTerm_spog (internStr (encodePSubject S m q.subject).2.1 q.predicate).2
      (encodePSubject S m q.subject).2.2 q.object
  rw [h3]
  exact encodePSubject_spog S m q.subject

/-! ### Whole-load properties -/

theorem loadTriples_counter_le (g : EncodedTerm) (doc : List PTriple) :
    ∀ S m, S.bnodeCounter ≤ ((loadTriples g doc S m).1).bnodeCounter := by
  induction doc with
  | nil => intro S m; exact Nat.le_refl _
  | cons t rest ih =>
    intro S m
    exact le_trans (stepTriple_counter_le g S m t)
      (ih (((stepTriple g S m t).2.1).insertEncoded (stepTriple g S m t).1)
        (stepTriple g S m t).2.2)

theorem loadTriples_dict_ext (g : EncodedTerm) (doc : List PTriple) :
    ∀ S m, Dict.Ext S.dict ((loadTriples g doc S m).1).dict := by
  induction doc with
  | nil => intro S m; exact Dict.Ext.refl S.dict
  | cons t rest ih =>
    intro S m
    exact (stepTriple_dict_ext g S m t).trans
      (ih (((stepTriple g S m t).2.1).insertEncoded (stepTriple g S m t).1)
        (stepTriple g S m t).2.2)

theorem loadTriples_bm_mono (g : EncodedTerm) (doc : List PTriple) :
    ∀ S m s i, bmLookup m s = some i →
      bmLookup ((loadTriples g doc S m).2.1) s = some i := by
  induction doc with
  | nil => intro S m s i h; exact h
  | cons t rest ih =>
    intro S m s i h
    exact ih (((stepTriple g S m t).2.1).insertEncoded (stepTriple g S m t).1)
      (stepTriple g S m t).2.2 s i (stepTriple_bm_mono g S t h)

theorem loadTriples_range (g : EncodedTerm) (doc : List PTriple) :
    ∀ S m, ∀ p ∈ (loadTriples g doc S m).2.1,
      p ∈ m ∨ (S.bnodeCounter ≤ p.2 ∧
        p.2 < ((loadTriples g doc S m).1).bnodeCounter) := by
  induction doc with
  | nil => intro S m p hp; exact Or.inl hp
  | cons t rest ih =>
    intro S m p hp
    rcases ih (((stepTriple g S m t).2.1).insertEncoded (stepTriple g S m t).1)
        (stepTriple g S m t).2.2 p hp with h | ⟨h1, h2⟩
    · rcases stepTriple_range g S m t p h with h' | ⟨h1', h2'⟩
      · exact Or.inl h'
      · exact Or.inr ⟨h1', lt_of_lt_of_le h2'
          (loadTriples_counter_le g rest
            (((stepTriple g S m t).2.1).insertEncoded (stepTriple g S m t).1)
            (stepTriple g S m t).2.2)⟩
    · exact Or.inr ⟨le_trans (stepTriple_counter_le g S m t) h1, h2⟩

theorem loadTriples_spog_mono (g : EncodedTerm) (doc : List PTriple) :
    ∀ S m q, q ∈ S.spog → q ∈ ((loadTriples g doc S m).1).spog := by
  induction doc with
  | nil => intro S m q h; exact h
  | cons t rest ih =>
    intro S m q h
    apply ih (((stepTriple g S m t).2.1).insertEncoded (stepTriple g S m t).1)
      (stepTriple g S m t).2.2
    have h1 : q ∈ ((stepTriple g S m t).2.1).spog := by
      rw [stepTriple_spog]
      exact h
    exact idxInsert_mem_mono spogKey _ h1

theorem loadQuads_counter_le (doc : List PQuad) :
    ∀ S m, S.bnodeCounter ≤ ((loadQuads doc S m).1).bnodeCounter := by
  induction doc with
  | nil => intro S m; exact Nat.le_refl _
  | cons q rest ih =>
    intro S m
    exact le_trans (stepQuad_counter_le S m q)
      (ih (((stepQuad S m q).2.1).insertEncoded (stepQuad S m q).1)
        (stepQuad S m q).2.2)

theorem loadQuads_dict_ext (doc : List PQuad) :
    ∀ S m, Dict.Ext S.dict ((loadQuads doc S m).1).dict := by
  induction doc with
  | nil => intro S m; exact Dict.Ext.refl S.dict
  | cons q rest ih =>
    intro S m
    exact (stepQuad_dict_ext S m q).trans
      (ih (((stepQuad S m q).2.1).insertEncoded (stepQuad S m q).1)
        (stepQuad S m q).2.2)

theorem loadQuads_bm_mono (doc : List PQuad) :
    ∀ S m s i, bmLookup m s = some i →
      bmLookup ((loadQuads doc S m).2.1) s = some i := by
  induction doc with
  | nil => intro S m s i h; exact h
  | cons q rest ih =>
    intro S m s i h
    exact ih (((stepQuad S m q).2.1).insertEncoded (stepQuad S m q).1)
      (stepQuad S m q).2.2 s i (stepQuad_bm_mono S q h)

theorem loadQuads_range (doc : List PQuad) :
    ∀ S m, ∀ p ∈ (loadQuads doc S m).2.1,
      p ∈ m ∨ (S.bnodeCounter ≤ p.2 ∧
        p.2 < ((loadQuads doc S m).1).bnodeCounter) := by
  induction doc with
  | nil => intro S m p hp; exact Or.inl hp
  | cons q rest ih =>
    intro S m p hp
    rcases ih (((stepQuad S m q).2.1).insertEncoded (stepQuad S m q).1)
        (stepQuad S m q).2.2 p hp with h | ⟨h1, h2⟩
    · rcases stepQuad_range S m q p h with h' | ⟨h1', h2'⟩
      · exact Or.inl h'
      · exact Or.inr ⟨h1', lt_of_lt_of_le h2'
          (loadQuads_counter_le rest
            (((stepQuad S m q).2.1).insertEncoded (stepQuad S m q).1)
            (stepQuad S m q).2.2)⟩
    · exact Or.inr ⟨le_trans (stepQuad_counter_le S m q) h1, h2⟩

theorem loadQuads_spog_mono (doc : List PQuad) :
    ∀ S m q, q ∈ S.spog → q ∈ ((loadQuads doc S m).1).spog := by
  induction doc with
  | nil => intro S m q h; exact h
  | cons e rest ih =>
    intro S m q h
    apply ih (((stepQuad S m e).2.1).insertEncoded (stepQuad S m e).1)
      (stepQuad S m e).2.2
    have h1 : q ∈ ((stepQuad S m e).2.1).spog := by
      rw [stepQuad_spog]
      exact h
    exact idxInsert_mem_mono spogKey _ h1

end Oxigraph

namespace Oxigraph

/-- Every triple loaded through `load_from_triple_parser` is inserted
with the pre-encoded target graph term and ends up in the store. -/
theorem loadTriples_trace (g : EncodedTerm) (doc : List PTriple) :
    ∀ S m, List.Forall₂ (fun (_ : PTriple) (eq : EncodedQuad) =>
        eq.graphName = g ∧ eq ∈ ((loadTriples g doc S m).1).spog)
      doc (loadTriples g doc S m).2.2 := by
  induction doc with
  | nil => intro S m; exact List.Forall₂.nil
  | cons t rest ih =>
    intro S m
    refine List.Forall₂.cons ⟨stepTriple_graph g S m t, ?_⟩
      (ih (((stepTriple g S m t).2.1).insertEncoded (stepTriple g S m t).1)
        (stepTriple g S m t).2.2)
    apply loadTriples_spog_mono g rest
      (((stepTriple g S m t).2.1).insertEncoded (stepTriple g S m t).1)
      (stepTriple g S m t).2.2
    exact idxInsert_mem_self spogKey _ _

/-- Every quad loaded through `load_from_quad_parser` carries the graph
of its own parser event. -/
theorem loadQuads_trace_honored (doc : List PQuad) :
    ∀ S m, List.Forall₂ (fun (pq : PQuad) (eq : EncodedQuad) =>
        GraphHonored pq.graphName eq.graphName ((loadQuads doc S m).1).dict)
      doc (loadQuads doc S m).2.2 := by
  induction doc with
  | nil => intro S m; exact List.Forall₂.nil
  | cons q rest ih =>
    intro S m
    refine List.Forall₂.cons ?_
      (ih (((stepQuad S m q).2.1).insertEncoded (stepQuad S m q).1)
        (stepQuad S m q).2.2)
    exact GraphHonored.mono
      (loadQuads_dict_ext rest
        (((stepQuad S m q).2.1).insertEncoded (stepQuad S m q).1)
        (stepQuad S m q).2.2)
      (stepQuad_graph_honored S m q)

/-- C6: loading through a triple parser inserts every parsed triple with
its graph position equal to the (once-encoded) caller-supplied target
graph; the JS entry point defaults a missing target graph to the default
graph; loading through a quad parser honors the graph of each parsed
quad. -/
theorem C6_target_graph_assignment :
    (∀ (gname : GraphName) (doc : List PTriple) (S : MemoryStore),
      List.Forall₂ (fun (_ : PTriple) (eq : EncodedQuad) =>
          eq.graphName = (encodeGraphName S.dict gname).1 ∧
          eq ∈ (loadGraphDoc S doc gname).spog)
        doc
        (loadTriples (encodeGraphName S.dict gname).1 doc
          { S with dict := (encodeGraphName S.dict gname).2 } []).2.2) ∧
    (∀ (S : MemoryStore) (mime : String) (docT : List PTriple) (docQ : List PQuad),
      (∃ gs, GraphSyntax.from_mime_type mime = some gs) →
        jsLoad S mime none docT docQ = .ok (loadGraphDoc S docT .defaultGraph)) ∧
    (∀ (doc : List PQuad) (S : MemoryStore),
      List.Forall₂ (fun (pq : PQuad) (eq : EncodedQuad) =>
          GraphHonored pq.graphName eq.graphName (loadDatasetDoc S doc).dict)
        doc (loadQuads doc S []).2.2) := by
  refine ⟨?_, ?_, ?_⟩
  · intro gname doc S
    exact loadTriples_trace (encodeGraphName S.dict gname).1 doc
      { S with dict := (encodeGraphName S.dict gname).2 } []
  · intro S mime docT docQ h
    obtain ⟨gs, hgs⟩ := h
    simp [jsLoad, hgs]
  · intro doc S
    exact loadQuads_trace_honored doc S []

/-- Witness for C6: loading an empty Turtle document with no target
graph goes to the default graph. -/
theorem C6_target_graph_assignment_witness :
    jsLoad MemoryStore.empty "text/turtle" none [] []
      = .ok (loadGraphDoc MemoryStore.empty [] .defaultGraph) :=
  C6_target_graph_assignment.2.1 MemoryStore.empty "text/turtle" [] []
    ⟨.turtle, rfl⟩

/-- C7: supplying a target graph name to a dataset-syntax load fails
with `GraphNameNotApplicable`; the rejection happens before any parsing
or insertion, so no quads from the call reach the store. -/
theorem C7_quad_parser_rejects_target_graph (S : MemoryStore) (mime : String)
    (g : GraphName) (docT : List PTriple) (docQ : List PQuad)
    (hd : ∃ ds, DatasetSyntax.from_mime_type mime = some ds) :
    jsLoad S mime (some g) docT docQ = .error .graphNameNotApplicable := by
  obtain ⟨ds, hds⟩ := hd
  have hm : mime = "application/n-quads" ∨ mime = "application/trig" := by
    unfold DatasetSyntax.from_mime_type at hds
    by_cases h1 : mime = "application/n-quads"
    · exact Or.inl h1
    · by_cases h2 : mime = "application/trig"
      · exact Or.inr h2
      · rw [if_neg h1, if_neg h2] at hds
        exact absurd hds (by simp)
  have hg : GraphSyntax.from_mime_type mime = none := by
    rcases hm with rfl | rfl <;> rfl
  simp [jsLoad, hg, hds]

/-- Witness for C7: an N-Quads load with a target graph fails. -/
theorem C7_quad_parser_rejects_target_graph_witness :
    jsLoad MemoryStore.empty "application/n-quads" (some .defaultGraph) [] []
      = .error .graphNameNotApplicable :=
  C7_quad_parser_rejects_target_graph MemoryStore.empty "application/n-quads"
    .defaultGraph [] [] ⟨.nQuads, rfl⟩

/-- C10: a load is not atomic across quads: when the event stream fails
after a prefix of good events, the store holds exactly the quads of the
processed prefix and the error is returned; this holds for both the
triple-parser and the quad-parser loop. -/
theorem C10_load_not_atomic :
    (∀ (g : EncodedTerm) (good : List PTriple) (e : String)
        (rest : List (Except String PTriple)) (S : MemoryStore) (m : BnodeMap),
      parseAllTriples g (good.map .ok ++ .error e :: rest) S m
        = ((loadTriples g good S m).1, some e)) ∧
    (∀ (good : List PQuad) (e : String)
        (rest : List (Except String PQuad)) (S : MemoryStore) (m : BnodeMap),
      parseAllQuads (good.map .ok ++ .error e :: rest) S m
        = ((loadQuads good S m).1, some e)) := by
  constructor
  · intro g good e rest
    induction good with
    | nil => intro S m; rfl
    | cons t rest' ih =>
      intro S m
      exact ih (((stepTriple g S m t).2.1).insertEncoded (stepTriple g S m t).1)
        (stepTriple g S m t).2.2
  · intro good e rest
    induction good with
    | nil => intro S m; rfl
    | cons q rest' ih =>
      intro S m
      exact ih (((stepQuad S m q).2.1).insertEncoded (stepQuad S m q).1)
        (stepQuad S m q).2.2

end Oxigraph

namespace Oxigraph

/-- Within one triple-parser load, every occurrence of a blank-node
label encodes to the single id the load's final blank-node map assigns
to that label. -/
theorem loadTriples_blank_agree (g : EncodedTerm) (doc : List PTriple) :
    ∀ S m, List.Forall₂ (fun (t : PTriple) (eq : EncodedQuad) =>
        (∀ l, t.subject = .blankLabel l → ∃ id, eq.subject = .blankNode id ∧
          bmLookup ((loadTriples g doc S m).2.1) l = some id) ∧
        (∀ l, t.object = .blankLabel l → ∃ id, eq.object = .blankNode id ∧
          bmLookup ((loadTriples g doc S m).2.1) l = some id))
      doc (loadTriples g doc S m).2.2 := by
  induction doc with
  | nil => intro S m; exact List.Forall₂.nil
  | cons t rest ih =>
    intro S m
    refine List.Forall₂.cons ⟨?_, ?_⟩
      (ih (((stepTriple g S m t).2.1).insertEncoded (stepTriple g S m t).1)
        (stepTriple g S m t).2.2)
    · intro l hl
      obtain ⟨id, he, hm⟩ := stepTriple_subject_blank g S m t l hl
      exact ⟨id, he, loadTriples_bm_mono g rest
        (((stepTriple g S m t).2.1).insertEncoded (stepTriple g S m t).1)
        (stepTriple g S m t).2.2 l id hm⟩
    · intro l hl
      obtain ⟨id, he, hm⟩ := stepTriple_object_blank g S m t l hl
      exact ⟨id, he, loadTriples_bm_mono g rest
        (((stepTriple g S m t).2.1).insertEncoded (stepTriple g S m t).1)
        (stepTriple g S m t).2.2 l id hm⟩

/-- The document of the spec's blank-node-isolation scenario:
`_:x <p> _:x .` -/
def sampleBlankDoc : List PTriple :=
  [⟨.blankLabel "x", "p", .blankLabel "x"⟩]

/-- The same scenario document as a quad-parser event (default graph):
`_:x <p> _:x .` -/
def sampleBlankQuadDoc : List PQuad :=
  [⟨.blankLabel "x", "p", .blankLabel "x", none⟩]

theorem stepQuad_subject_blank (S : MemoryStore) (m : BnodeMap) (q : PQuad)
    (l : String) (h : q.subject = .blankLabel l) :
    ∃ id, (stepQuad S m q).1.subject = .blankNode id ∧
      bmLookup ((stepQuad S m q).2.2) l = some id := by
  obtain ⟨qs, qp, qo, qg⟩ := q
  simp only at h
  subst h
  obtain ⟨id, he, hm⟩ := encodePSubject_blank S m l
  refine ⟨id, he, ?_⟩
  exact encodePGraph_bm_mono
    (encodePTerm (internStr (encodePSubject S m (.blankLabel l)).2.1 qp).2
      (encodePSubject S m (.blankLabel l)).2.2 qo).2.1 qg
    (encodePTerm_bm_mono
      (internStr (encodePSubject S m (.blankLabel l)).2.1 qp).2 qo hm)

theorem stepQuad_object_blank (S : MemoryStore) (m : BnodeMap) (q : PQuad)
    (l : String) (h : q.object = .blankLabel l) :
    ∃ id, (stepQuad S m q).1.object = .blankNode id ∧
      bmLookup ((stepQuad S m q).2.2) l = some id := by
  obtain ⟨qs, qp, qo, qg⟩ := q
  simp only at h
  subst h
  obtain ⟨id, he, hm⟩ := encodePTerm_blank
    (internStr (encodePSubject S m qs).2.1 qp).2 (encodePSubject S m qs).2.2 l
  refine ⟨id, he, ?_⟩
  exact encodePGraph_bm_mono
    (encodePTerm (internStr (encodePSubject S m qs).2.1 qp).2
      (encodePSubject S m qs).2.2 (.blankLabel l)).2.1 qg hm

theorem stepQuad_graph_blank (S : MemoryStore) (m : BnodeMap) (q : PQuad)
    (l : String) (h : q.graphName = some (.blankLabel l)) :
    ∃ id, (stepQuad S m q).1.graphName = .blankNode id ∧
      bmLookup ((stepQuad S m q).2.2) l = some id := by
  obtain ⟨qs, qp, qo, qg⟩ := q
  simp only at h
  subst h
  exact encodePSubject_blank
    (encodePTerm (internStr (encodePSubject S m qs).2.1 qp).2
      (encodePSubject S m qs).2.2 qo).2.1
    (encodePTerm (internStr (encodePSubject S m qs).2.1 qp).2
      (encodePSubject S m qs).2.2 qo).2.2 l

/-- Within one quad-parser load, every occurrence of a blank-node label
— as subject, object or graph name — encodes to the single id the
load's final blank-node map assigns to that label. -/
theorem loadQuads_blank_agree (doc : List PQuad) :
    ∀ S m, List.Forall₂ (fun (q : PQuad) (eq : EncodedQuad) =>
        (∀ l, q.subject = .blankLabel l → ∃ id, eq.subject = .blankNode id ∧
          bmLookup ((loadQuads doc S m).2.1) l = some id) ∧
        (∀ l, q.object = .blankLabel l → ∃ id, eq.object = .blankNode id ∧
          bmLookup ((loadQuads doc S m).2.1) l = some id) ∧
        (∀ l, q.graphName = some (.blankLabel l) →
          ∃ id, eq.graphName = .blankNode id ∧
            bmLookup ((loadQuads doc S m).2.1) l = some id))
      doc (loadQuads doc S m).2.2 := by
  induction doc with
  | nil => intro S m; exact List.Forall₂.nil
  | cons q rest ih =>
    intro S m
    refine List.Forall₂.cons ⟨?_, ?_, ?_⟩
      (ih (((stepQuad S m q).2.1).insertEncoded (stepQuad S m q).1)
        (stepQuad S m q).2.2)
    · intro l hl
      obtain ⟨id, he, hm⟩ := stepQuad_subject_blank S m q l hl
      exact ⟨id, he, loadQuads_bm_mono rest
        (((stepQuad S m q).2.1).insertEncoded (stepQuad S m q).1)
        (stepQuad S m q).2.2 l id hm⟩
    · intro l hl
      obtain ⟨id, he, hm⟩ := stepQuad_object_blank S m q l hl
      exact ⟨id, he, loadQuads_bm_mono rest
        (((stepQuad S m q).2.1).insertEncoded (stepQuad S m q).1)
        (stepQuad S m q).2.2 l id hm⟩
    · intro l hl
      obtain ⟨id, he, hm⟩ := stepQuad_graph_blank S m q l hl
      exact ⟨id, he, loadQuads_bm_mono rest
        (((stepQuad S m q).2.1).insertEncoded (stepQuad S m q).1)
        (stepQuad S m q).2.2 l id hm⟩

/-- One loader call: `load_from_triple_parser` with its pre-encoded
target graph, or `load_from_quad_parser`.  Each call starts with a
fresh blank-node map, as in the source. -/
inductive LoadDoc where
  | triples (g : EncodedTerm) (doc : List PTriple)
  | quads (doc : List PQuad)
deriving DecidableEq, Repr

def runLoad (S : MemoryStore) : LoadDoc → MemoryStore × BnodeMap × List EncodedQuad
  | .triples g doc => loadTriples g doc S []
  | .quads doc => loadQuads doc S []

/-- Every blank-node id a load allocates lies in the counter window the
load owns. -/
theorem runLoad_range (S : MemoryStore) (d : LoadDoc) :
    ∀ p ∈ (runLoad S d).2.1,
      S.bnodeCounter ≤ p.2 ∧ p.2 < ((runLoad S d).1).bnodeCounter := by
  cases d with
  | triples g doc =>
    intro p hp
    rcases loadTriples_range g doc S [] p hp with h | hr
    · exact absurd h (by simp)
    · exact hr
  | quads doc =>
    intro p hp
    rcases loadQuads_range doc S [] p hp with h | hr
    · exact absurd h (by simp)
    · exact hr

/-- C5: within one load — through either the triple-parser or the
quad-parser loop — every occurrence of the same parser blank-node label
(as subject, object or, for quads, graph name) maps to the single
store-side id the load's final blank-node map assigns to that label;
blank-node ids allocated by two different loads (of either kind) are
disjoint; hence loading the spec's document `_:x <p> _:x .` twice
yields 2 quads where its blank nodes appeared in one. -/
theorem C5_blank_node_isolation :
    (∀ (g : EncodedTerm) (doc : List PTriple) (S : MemoryStore) (m : BnodeMap),
      List.Forall₂ (fun (t : PTriple) (eq : EncodedQuad) =>
          (∀ l, t.subject = .blankLabel l → ∃ id, eq.subject = .blankNode id ∧
            bmLookup ((loadTriples g doc S m).2.1) l = some id) ∧
          (∀ l, t.object = .blankLabel l → ∃ id, eq.object = .blankNode id ∧
            bmLookup ((loadTriples g doc S m).2.1) l = some id))
        doc (loadTriples g doc S m).2.2) ∧
    (∀ (doc : List PQuad) (S : MemoryStore) (m : BnodeMap),
      List.Forall₂ (fun (q : PQuad) (eq : EncodedQuad) =>
          (∀ l, q.subject = .blankLabel l → ∃ id, eq.subject = .blankNode id ∧
            bmLookup ((loadQuads doc S m).2.1) l = some id) ∧
          (∀ l, q.object = .blankLabel l → ∃ id, eq.object = .blankNode id ∧
            bmLookup ((loadQuads doc S m).2.1) l = some id) ∧
          (∀ l, q.graphName = some (.blankLabel l) →
            ∃ id, eq.graphName = .blankNode id ∧
              bmLookup ((loadQuads doc S m).2.1) l = some id))
        doc (loadQuads doc S m).2.2) ∧
    (∀ (d1 d2 : LoadDoc) (S : MemoryStore) (p1 p2 : String × Nat),
      p1 ∈ (runLoad S d1).2.1 →
      p2 ∈ (runLoad (runLoad S d1).1 d2).2.1 →
      p1.2 ≠ p2.2) ∧
    (loadGraphDoc (loadGraphDoc MemoryStore.empty sampleBlankDoc .defaultGraph)
      sampleBlankDoc .defaultGraph).len = 2 := by
  refine ⟨loadTriples_blank_agree, loadQuads_blank_agree, ?_, ?_⟩
  · intro d1 d2 S p1 p2 h1 h2
    obtain ⟨_, hlt⟩ := runLoad_range S d1 p1 h1
    obtain ⟨hge, _⟩ := runLoad_range (runLoad S d1).1 d2 p2 h2
    exact Nat.ne_of_lt (lt_of_lt_of_le hlt hge)
  · decide

/-- Witness for C5 at the spec's scenario: a triple-parser load and a
following quad-parser load of `_:x <p> _:x .` allocate the blank-node
ids 0 and 1, which differ. -/
theorem C5_blank_node_isolation_witness :
    ("x", 0) ∈ (runLoad MemoryStore.empty
      (.triples .defaultGraph sampleBlankDoc)).2.1 ∧
    ("x", 1) ∈ (runLoad (runLoad MemoryStore.empty
      (.triples .defaultGraph sampleBlankDoc)).1
      (.quads sampleBlankQuadDoc)).2.1 ∧
    (("x", 0) : String × Nat).2 ≠ (("x", 1) : String × Nat).2 :=
  ⟨by decide, by decide,
    C5_blank_node_isolation.2.2.1 (.triples .defaultGraph sampleBlankDoc)
      (.quads sampleBlankQuadDoc) MemoryStore.empty ("x", 0) ("x", 1)
      (by decide) (by decide)⟩

end Oxigraph
